import Mathlib

/-!
Verification of the britney2 C core (`lib/dpkg.c`, `lib/templates.h`,
`lib/britney-py.c`).

The development is a shallow embedding of the data model and the
operations of the installability / migration engine:

* the per-architecture package universe (`dpkg_packages`, its string keyed
  hash tables `packagetbl` and `virtualpkgtbl` embedded as association
  lists with first-match semantics, matching the open-addressed tables of
  `templates.h`);
* universe construction and mutation (`add_package`, `remove_package`,
  `add_virtualpackage`, `remove_virtualpackage`);
* the backtracking installability solver (`checkinstallable`,
  `checkinstallable2`, `caninstall`, `install`, `uninstall`,
  `get_matching`) with its frontier of `instonelist` frames embedded as a
  zipper of identity-tagged frames (the C code keeps a doubly linked list
  with a roaming `pointer`, a maintained `last` tail pointer, and
  node-identity `cutoff` references);
* the staged-mutation layer with its undo journal (`dpkg_sources_note`,
  `new_op`, `save_source_note`, `save_empty_source_note`,
  `upgrade_source`, `upgrade_arch`, `remove_source`, `undo_change`);
* the `Priority:` field scan of `read_package`.

Pointers are embedded as follows: collected packages live in the
`packages` table of their universe and are referenced by package name
(names are unique in a universe because `add_package` is first-writer
wins); object identity, where the C code compares raw pointers, is
tracked by explicit `uid` fields allocated from counters.  C `int`
counters are embedded as `Int`.  The external version comparison oracle
(`debVS.CmpVersion`, linked from apt) is a parameter `vc` of every
definition that consults versions.  Where the C code would dereference a
null pointer or fail an assertion the embedding either returns `none`
(for `checkinstallable`, whose success handler reads through frame
cursors) or leaves the state unchanged; such branches are marked in
comments and are unreachable in the verified runs.
-/

/-! ## Association list tables (templates.h HASH_IMPL) -/

/-- Key lookup, first matching entry wins (`lookup_*` of templates.h). -/
def tblLookup {α : Type} : List (String × α) → String → Option α
  | [], _ => none
  | (k, v) :: t, n => if k = n then some v else tblLookup t n

/-- Insertion of a fresh key (`add_*`; the C code asserts the key is absent). -/
def tblAdd {α : Type} (t : List (String × α)) (k : String) (v : α) : List (String × α) :=
  (k, v) :: t

/-- Remove the entry of a key, returning the removed value (`remove_*`). -/
def tblRemove {α : Type} : List (String × α) → String → Option α × List (String × α)
  | [], _ => (none, [])
  | (k, v) :: t, n =>
      if k = n then (some v, t)
      else
        let r := tblRemove t n
        (r.1, (k, v) :: r.2)

/-- Update the value stored under a key in place (`replace_*` composed with
a lookup; used to embed mutation through a pointer into the table). -/
def tblUpdate {α : Type} : List (String × α) → String → (α → α) → List (String × α)
  | [], _, _ => []
  | (k, v) :: t, n, f =>
      if k = n then (k, f v) :: t else (k, v) :: tblUpdate t n f

/-- Delete the first list element satisfying `p` (`delete_*` at the node
found by a linear scan; when no node matches the C code would fail its
assertion, the embedding leaves the list unchanged). -/
def deleteFirstBy {α : Type} (p : α → Bool) : List α → List α
  | [] => []
  | x :: t => if p x then t else x :: deleteFirstBy p t

/-! ## Core data model (dpkg.h) -/

/-- Version relation of a dependency atom (`dependency_relation`). -/
inductive DepOp where
  | noop | lt | lteq | eq | gteq | gt
deriving DecidableEq, Repr

/-- One dependency atom (`struct dependency`). -/
structure Dependency where
  package : String
  op : DepOp
  version : String
deriving DecidableEq, Repr

/-- An immutable parsed binary package (`struct dpkg_package`).  The four
dependency kinds are `depends[0] = Pre-Depends`, `depends[1] = Depends`,
`depends[2] = Recommends`, `depends[3] = Suggests`; each is a list of
disjunctive clauses, each clause a list of atoms. -/
structure DpkgPackage where
  package : String
  version : String
  source : String
  source_ver : String
  priority : Int
  arch_all : Bool
  depends0 : List (List Dependency)
  depends1 : List (List Dependency)
  depends2 : List (List Dependency)
  depends3 : List (List Dependency)
  conflicts : List Dependency
  provides : List String
deriving DecidableEq, Repr

/-- Memoized installability (`enum { UNKNOWN, YES }`). -/
inductive Installability where
  | unknown | yes
deriving DecidableEq, Repr

/-- A package collected into a universe (`struct dpkg_collected_package`).
`uid` embeds the identity of the heap object (the C code compares
collected-package pointers). -/
structure CollectedPackage where
  uid : Nat
  pkg : DpkgPackage
  installed : Int
  conflicted : Int
  installable : Installability
  mayaffect : List String
deriving DecidableEq, Repr

/-- One provider entry of a virtual-package bucket (`struct
dpkg_provision`); `pkg` names the providing collected package, `version`
is `none` for a pure `Provides:` entry. -/
structure Provision where
  version : Option String
  pkg : String
deriving DecidableEq, Repr

/-- A per-architecture universe (`struct dpkg_packages`).  `nextUid` feeds
the identity counter of newly collected packages. -/
structure DpkgPackages where
  arch : String
  packages : List (String × CollectedPackage)
  virtualpkgs : List (String × List Provision)
  nextUid : Nat
deriving DecidableEq, Repr

/-- Placeholder package used to keep reads through references total; never
reachable in well-formed states (a C pointer dereference cannot fail). -/
def noPackage : DpkgPackage :=
  { package := "", version := "", source := "", source_ver := "", priority := 0
    arch_all := false, depends0 := [], depends1 := [], depends2 := [], depends3 := []
    conflicts := [], provides := [] }

/-- Placeholder collected package, see `noPackage`. -/
def noCollected : CollectedPackage :=
  { uid := 0, pkg := noPackage, installed := 0, conflicted := 0
    installable := .unknown, mayaffect := [] }

/-- Dereference a collected-package pointer (reference by name). -/
def getCpkg (u : DpkgPackages) (n : String) : CollectedPackage :=
  (tblLookup u.packages n).getD noCollected

/-- Mutate a collected package through its reference. -/
def updatePkg (u : DpkgPackages) (n : String) (f : CollectedPackage → CollectedPackage) :
    DpkgPackages :=
  { u with packages := tblUpdate u.packages n f }

/-! ## Version comparison (dpkg-lib.cpp `cmpversions`)

The underlying `versioncmp` oracle is external (apt's `debVS.CmpVersion`);
the dispatch over the relation is from `cmpversions`.  `dr_NOOP` falls
through the C `switch` and returns 0. -/

/-- Relation dispatch of `cmpversions` over the external oracle `vc`. -/
def cmpversions (vc : String → String → Int) (l : String) (op : DepOp) (r : String) : Bool :=
  match op with
  | .lt => vc l r < 0
  | .lteq => vc l r ≤ 0
  | .eq => vc l r = 0
  | .gteq => vc l r ≥ 0
  | .gt => vc l r > 0
  | .noop => false

/-- Integer sign of `strcmp`. -/
def strcmpI (a b : String) : Int :=
  match compare a b with
  | .lt => -1
  | .eq => 0
  | .gt => 1

/-- Provider order within a virtual bucket (`packagecmp`): priority rank,
then package name. -/
def packagecmp (l r : DpkgPackage) : Int :=
  if l.priority < r.priority then -1
  else if l.priority > r.priority then 1
  else strcmpI l.package r.package

/-! ## Universe construction and mutation (dpkg.c lines 477-627) -/

/-- Ordered insertion into one virtual bucket: the loop of
`add_virtualpackage` walks while `packagecmp(cpkg->pkg, elem) >= 0` and
inserts before the first strictly greater provider. -/
def vpkgInsert (u : DpkgPackages) (newPkg : DpkgPackage) (value : Provision) :
    List Provision → List Provision
  | [] => [value]
  | p :: ps =>
      if packagecmp newPkg (getCpkg u p.pkg).pkg ≥ 0 then p :: vpkgInsert u newPkg value ps
      else value :: p :: ps

/-- Register a provider under a virtual name (`add_virtualpackage`). -/
def add_virtualpackage (u : DpkgPackages) (package : String) (version : Option String)
    (cpkgN : String) : DpkgPackages :=
  let value : Provision := { version := version, pkg := cpkgN }
  match tblLookup u.virtualpkgs package with
  | some l =>
      { u with virtualpkgs :=
          tblUpdate u.virtualpkgs package (fun _ => vpkgInsert u (getCpkg u cpkgN).pkg value l) }
  | none =>
      { u with virtualpkgs :=
          tblAdd u.virtualpkgs package (vpkgInsert u (getCpkg u cpkgN).pkg value []) }

/-- Fresh collected wrapper (`new_collected_package`), with the identity
counter of the universe standing in for the allocator. -/
def new_collected_package (u : DpkgPackages) (pkg : DpkgPackage) : CollectedPackage :=
  { uid := u.nextUid, pkg := pkg, installed := 0, conflicted := 0
    installable := .unknown, mayaffect := [] }

/-- Add a binary package to a universe (`add_package`): a no-op when a
package of the same name is already present (first-writer wins), otherwise
the package is collected, registered in `packages`, and indexed in the
virtual table under its own name and every provided name. -/
def add_package (u : DpkgPackages) (pkg : DpkgPackage) : DpkgPackages :=
  if (tblLookup u.packages pkg.package).isSome then u
  else
    let cpkg := new_collected_package u pkg
    let u1 : DpkgPackages :=
      { u with packages := tblAdd u.packages pkg.package cpkg, nextUid := u.nextUid + 1 }
    let u2 := add_virtualpackage u1 pkg.package (some pkg.version) pkg.package
    pkg.provides.foldl (fun acc v => add_virtualpackage acc v none pkg.package) u2

/-- Delist one provider from one virtual bucket (`remove_virtualpackage`):
delete the first node referencing the collected package, drop the bucket
when it becomes empty, otherwise store the shortened list back.  The C
code asserts that the bucket and the node exist; the embedding leaves the
table unchanged on those unreachable branches. -/
def remove_virtualpackage (u : DpkgPackages) (pkgname : String) (cpkgN : String) :
    DpkgPackages :=
  match tblLookup u.virtualpkgs pkgname with
  | none => u
  | some l =>
      let l2 := deleteFirstBy (fun pr => pr.pkg == cpkgN) l
      if l2.isEmpty then { u with virtualpkgs := (tblRemove u.virtualpkgs pkgname).2 }
      else { u with virtualpkgs := tblUpdate u.virtualpkgs pkgname (fun _ => l2) }

/-- One step of the `mayaffect` loop of `remove_package`: reset the memo
of a still-present package, skip an absent name. -/
def invalidateOne (acc : DpkgPackages) (aff : String) : DpkgPackages :=
  match tblLookup acc.packages aff with
  | none => acc
  | some _ => updatePkg acc aff (fun c => { c with installable := .unknown })

/-- The `mayaffect` loop of `remove_package`. -/
def invalidateMayaffect (u : DpkgPackages) (l : List String) : DpkgPackages :=
  l.foldl invalidateOne u

/-- Remove a collected package from a universe (`remove_package`): reset
the installability memo of every still-present package named in
`mayaffect`, delist the package from `packages` (returning early when the
entry under that name is a different object), then delist it from the
virtual bucket of its own name and of every provided name. -/
def remove_package (u : DpkgPackages) (cpkg : CollectedPackage) : DpkgPackages :=
  let u1 := invalidateMayaffect u cpkg.mayaffect
  let rem := tblRemove u1.packages cpkg.pkg.package
  let u2 : DpkgPackages := { u1 with packages := rem.2 }
  match rem.1 with
  | none => u2
  | some p =>
      if p.uid ≠ cpkg.uid then u2
      else
        let u3 := remove_virtualpackage u2 cpkg.pkg.package cpkg.pkg.package
        cpkg.pkg.provides.foldl (fun acc v => remove_virtualpackage acc v cpkg.pkg.package) u3

/-- Python-binding remove (`dpkgpackages_remove_binary`): `false` and no
change when the name is absent, otherwise `remove_package` on the entry. -/
def remove_binary (u : DpkgPackages) (name : String) : Bool × DpkgPackages :=
  match tblLookup u.packages name with
  | none => (false, u)
  | some cpkg => (true, remove_package u cpkg)

/-! ## Dependency matching (dpkg.c lines 845-882) -/

/-- Providers matching one atom (`get_matching_low`): every provider for a
`dr_NOOP` atom; for a versioned atom only providers with a concrete
version satisfying the relation. -/
def get_matching_low (vc : String → String → Int) (u : DpkgPackages) (dep : Dependency) :
    List String :=
  match tblLookup u.virtualpkgs dep.package with
  | none => []
  | some bucket =>
      bucket.filterMap (fun vpkg =>
        if dep.op = .noop then some vpkg.pkg
        else match vpkg.version with
          | none => none
          | some v => if cmpversions vc v dep.op dep.version then some vpkg.pkg else none)

/-- Providers matching a disjunctive clause (`get_matching`). -/
def get_matching (vc : String → String → Int) (u : DpkgPackages) (depopts : List Dependency) :
    List String :=
  (depopts.map (get_matching_low vc u)).flatten

/-! ## Solver counters (dpkg.c lines 941-992) -/

/-- Install feasibility (`caninstall`). -/
def caninstall (vc : String → String → Int) (u : DpkgPackages) (n : String) : Bool :=
  let cpkg := getCpkg u n
  if cpkg.installed > 0 then true
  else if cpkg.conflicted > 0 then false
  else (get_matching vc u cpkg.pkg.conflicts).all (fun conf => ¬((getCpkg u conf).installed > 0))

/-- Shift `conflicted` by `δ` on every listed package except `selfN`
itself (the conflict loops of `install`, with `δ = 1`, and `uninstall`,
with `δ = -1`). -/
def bumpConflicted (δ : Int) (selfN : String) (u : DpkgPackages) (l : List String) :
    DpkgPackages :=
  l.foldl
    (fun acc conf =>
      if conf = selfN then acc
      else updatePkg acc conf (fun c => { c with conflicted := c.conflicted + δ })) u

/-- Count one installation (`install`): on the first install, bump
`conflicted` of every non-self conflict match; always bump `installed`. -/
def install (vc : String → String → Int) (u : DpkgPackages) (n : String) : DpkgPackages :=
  match tblLookup u.packages n with
  | none => u
  | some cpkg =>
      let u1 :=
        if cpkg.installed = 0 then
          bumpConflicted 1 n u (get_matching vc u cpkg.pkg.conflicts)
        else u
      updatePkg u1 n (fun c => { c with installed := c.installed + 1 })

/-- Undo one installation (`uninstall`): drop `installed`; when it reaches
zero, drop `conflicted` of every non-self conflict match. -/
def uninstall (vc : String → String → Int) (u : DpkgPackages) (n : String) : DpkgPackages :=
  match tblLookup u.packages n with
  | none => u
  | some cpkg =>
      let u1 := updatePkg u n (fun c => { c with installed := c.installed - 1 })
      if cpkg.installed - 1 = 0 then
        bumpConflicted (-1) n u1 (get_matching vc u cpkg.pkg.conflicts)
      else u1

/-! ## The solver frontier (dpkg.c lines 884-939, 1098-1346)

The C `instonelist` is a doubly linked list of frames with stable node
identity; `cutoff` stores a node pointer.  The embedding tags every frame
with a fresh `id` and keeps the list as a zipper focused on `pointer`:
`before` holds the frames before the pointer in reverse order, `after`
the frames behind it; the maintained `last` pointer of the C code is the
end of `after`. -/

/-- One frame (`struct instonelist`): `cur` is the index of the
alternative currently tried within `instone` (`curX`, `none` for NULL),
`cutoff` the id of the cutoff node (`cutoffX`), `expanded` the
single-expansion guard (`expandedX`). -/
structure IdFrame where
  id : Nat
  cur : Option Nat
  instone : List String
  cutoff : Option Nat
  expanded : Bool
deriving DecidableEq, Repr

/-- The frontier zipper; `current` is the frame the C `pointer` points at. -/
structure Frontier where
  before : List IdFrame
  current : IdFrame
  after : List IdFrame
deriving DecidableEq, Repr

/-- Full solver state. -/
structure SolverState where
  pkgs : DpkgPackages
  fr : Frontier
  nextId : Nat
deriving DecidableEq, Repr

/-- The frontier as a plain list, head first. -/
def Frontier.toList (fr : Frontier) : List IdFrame :=
  fr.before.reverse ++ fr.current :: fr.after

/-- Identity of the `last` node (tail of the frontier). -/
def lastIdOf (fr : Frontier) : Nat :=
  match fr.after.getLast? with
  | some f => f.id
  | none => fr.current.id

/-- Keep the prefix of the list up to and including the node with the
given id (`trim_instonelist_after` keeps the node and frees its tail). -/
def takeThroughId (cid : Nat) : List IdFrame → List IdFrame
  | [] => []
  | f :: fs => if f.id = cid then [f] else f :: takeThroughId cid fs

/-- Trim everything after the cutoff node (`trim_instonelist_after`
applied at `I1CUTOFF(pointer)`, together with `last = I1CUTOFF(pointer)`).
A `none` cutoff would be a null dereference in C; the embedding leaves the
tail alone on that unreachable branch. -/
def trimAfter (cutoff : Option Nat) (curId : Nat) (after : List IdFrame) : List IdFrame :=
  match cutoff with
  | none => after
  | some cid => if cid = curId then [] else takeThroughId cid after

/-- Insert a new node directly after the node with the given id
(`insert_instonelist(node, ...)`); appended at the end when the id is not
found (unreachable). -/
def insertAfterId (cid : Nat) (nf : IdFrame) : List IdFrame → List IdFrame
  | [] => [nf]
  | f :: fs => if f.id = cid then f :: nf :: fs else f :: insertAfterId cid nf fs

/-- Fresh frame for a new subgoal (`insert_instonelist` node setup). -/
def mkFrame (id : Nat) (instone : List String) : IdFrame :=
  { id := id, cur := none, instone := instone, cutoff := none, expanded := false }

/-- First alternative of the remaining suffix `l` (whose head sits at
index `i` of the goal) that can be installed (the
`while(I1CUR(pointer) && !caninstall(...))` skip loop, which walks the
remaining list nodes). -/
def advanceFrom (vc : String → String → Int) (u : DpkgPackages) :
    List String → Nat → Option Nat
  | [], _ => none
  | n :: rest, i => if caninstall vc u n then some i else advanceFrom vc u rest (i + 1)

/-- Kinds participating in installability (`dependency_counts`). -/
def dependency_counts : List Bool := [true, true, false, false]

/-- The dependency clauses the solver expands, in kind order (the loop
`for (i = 0; i < 4; i++) if (!dependency_counts[i]) continue;`). -/
def activeClauses (p : DpkgPackage) : List (List Dependency) :=
  (List.zipWith (fun act d => if act then d else []) dependency_counts
    [p.depends0, p.depends1, p.depends2, p.depends3]).flatten

/-- Accumulator of the dependency-expansion loop: frontier, fresh-id
counter, and the `bother` flag. -/
structure ExpandSt where
  fr : Frontier
  nextId : Nat
  bother : Bool
deriving Repr

/-- Expansion of a single dependency clause of the freshly installed
package (the body of the clause loop at dpkg.c lines 1221-1282):
an empty match clears `bother`; a singleton match is checked against the
alternatives already passed at the current frame, then inserted after the
pointer (guarded by `expanded`, at most once) when the current goal is a
singleton, after the cutoff node otherwise; a multi-provider match is
appended at the tail. -/
def expandClauseGo (curIdx : Nat)
    (expandedLocal : Bool) (st : ExpandSt) : List String → ExpandSt
  | [] => { st with bother := false }
  | x :: rest =>
      if rest.isEmpty then
        if st.fr.current.instone.length = 1 then
          if expandedLocal then
            { st with
                bother := if (st.fr.current.instone.take curIdx).contains x then false
                          else st.bother }
          else
            { fr := { st.fr with
                        current := { st.fr.current with expanded := true }
                        after := mkFrame st.nextId (x :: rest) :: st.fr.after }
              nextId := st.nextId + 1
              bother := if (st.fr.current.instone.take curIdx).contains x then false
                        else st.bother }
        else
          { fr := { st.fr with
                      after :=
                        match st.fr.current.cutoff with
                        | none => st.fr.after ++ [mkFrame st.nextId (x :: rest)]
                        | some cid =>
                            if cid = st.fr.current.id then
                              mkFrame st.nextId (x :: rest) :: st.fr.after
                            else insertAfterId cid (mkFrame st.nextId (x :: rest)) st.fr.after }
            nextId := st.nextId + 1
            bother := if (st.fr.current.instone.take curIdx).contains x then false
                      else st.bother }
      else
        { fr := { st.fr with after := st.fr.after ++ [mkFrame st.nextId (x :: rest)] }
          nextId := st.nextId + 1
          bother := st.bother }

/-- Expansion of a single clause, dispatching on its provider matches. -/
def expandClause (vc : String → String → Int) (u : DpkgPackages) (curIdx : Nat)
    (expandedLocal : Bool) (st : ExpandSt) (clause : List Dependency) : ExpandSt :=
  expandClauseGo curIdx expandedLocal st (get_matching vc u clause)

/-- Dependency expansion of a freshly installed package (the
`if (instpkg->installed == 1)` block): fold `expandClause` over the active
clauses, capturing `expanded` once before the loop as the C code does. -/
def expandDeps (vc : String → String → Int) (u : DpkgPackages) (instpkg : DpkgPackage)
    (curIdx : Nat) (fr : Frontier) (nextId : Nat) : ExpandSt :=
  let expandedLocal := fr.current.expanded
  (activeClauses instpkg).foldl (expandClause vc u curIdx expandedLocal)
    { fr := fr, nextId := nextId, bother := true }

/-- Result of one iteration of the main solver loop. -/
inductive StepRes where
  | cont (st : SolverState)
  | fin (pkgs : DpkgPackages) (frames : List IdFrame)
  | brk (st : SolverState)
deriving Repr

/-- Advance the pointer to the next frame (`pointer = I1NEXT(pointer)`);
`fin` when it runs off the tail. -/
def moveNext (u : DpkgPackages) (fr : Frontier) (nid : Nat) : StepRes :=
  match fr.after with
  | [] => .fin u fr.toList
  | n :: rest =>
      .cont { pkgs := u
              fr := { before := fr.current :: fr.before, current := n, after := rest }
              nextId := nid }

/-- The cursor after the skip loop: starting from the current selection,
the first remaining alternative that can be installed. -/
def advCur (vc : String → String → Int) (u : DpkgPackages) (c : IdFrame) : Option Nat :=
  match c.cur with
  | none => none
  | some i => advanceFrom vc u (c.instone.drop i) i

/-- Backtrack on an exhausted cursor: step the pointer back one frame, or
break out of the loop at the head frame. -/
def backtrackRes (u : DpkgPackages) (fr : Frontier) (nid : Nat) : StepRes :=
  match fr.before with
  | [] => .brk { pkgs := u, fr := fr, nextId := nid }
  | p :: rest =>
      .cont { pkgs := u
              fr := { before := rest, current := p, after := fr.current :: fr.after }
              nextId := nid }

/-- Install the chosen alternative, expand its dependencies on first
install, and advance the pointer unless a dependency was unsatisfiable. -/
def installPath (vc : String → String → Int) (u : DpkgPackages) (fr : Frontier) (nid : Nat)
    (i : Nat) : StepRes :=
  let instName := fr.current.instone.getD i ""
  let u2 := install vc u instName
  if (getCpkg u2 instName).installed = 1 then
    let ex := expandDeps vc u2 (getCpkg u2 instName).pkg i fr nid
    if ex.bother then moveNext u2 ex.fr ex.nextId
    else .cont { pkgs := u2, fr := ex.fr, nextId := ex.nextId }
  else moveNext u2 fr nid

/-- Tail of one loop iteration after the cursor has been (re)positioned:
skip uninstallable alternatives, backtrack when the cursor is exhausted,
otherwise take the install path. -/
def stepGo (vc : String → String → Int) (u : DpkgPackages) (fr : Frontier) (nid : Nat) :
    StepRes :=
  match advCur vc u fr.current with
  | none => backtrackRes u { fr with current := { fr.current with cur := none } } nid
  | some i => installPath vc u { fr with current := { fr.current with cur := some i } } nid i

/-- One iteration of the main solver loop (dpkg.c lines 1131-1290): `cur ==
NULL` selects a first alternative, preferring an already installed one,
and records the cutoff; otherwise the previous choice is uninstalled, the
frontier is trimmed at the cutoff, and the cursor moves to the next
alternative (or gives up when even the installed choice did not help). -/
def step (vc : String → String → Int) (st : SolverState) : StepRes :=
  let fr := st.fr
  match fr.current.cur with
  | none =>
      let c := fr.current
      let cur0 :=
        match c.instone.findIdx? (fun n => (getCpkg st.pkgs n).installed ≠ 0) with
        | some j => some j
        | none => if c.instone.isEmpty then none else some 0
      let c2 := { c with cur := cur0, cutoff := some (lastIdOf fr) }
      stepGo vc st.pkgs { fr with current := c2 } st.nextId
  | some i =>
      let selName := fr.current.instone.getD i ""
      let u1 := uninstall vc st.pkgs selName
      let after1 := trimAfter fr.current.cutoff fr.current.id fr.after
      let cur1 :=
        if (getCpkg u1 selName).installed > 0 then none
        else if i + 1 < fr.current.instone.length then some (i + 1) else none
      stepGo vc u1
        { fr with current := { fr.current with cur := cur1 }, after := after1 } st.nextId

/-- Exit of the main solver loop. -/
inductive LoopRes where
  | budget (st : SolverState)
  | budgetNull (pkgs : DpkgPackages) (frames : List IdFrame)
  | success (pkgs : DpkgPackages) (frames : List IdFrame)
  | fail (st : SolverState)
deriving Repr

/-- The main solver loop `while(--counter > 0 && pointer)`: the counter is
decremented and tested before the pointer, so a counter that reaches zero
wins even over a null pointer (`budgetNull`, on which the C overflow
handler would dereference NULL). -/
def mainLoop (vc : String → String → Int) : Nat → SolverState → LoopRes
  | 0, st => .budget st
  | 1, st => .budget st
  | c + 2, st =>
      match step vc st with
      | .brk st2 => .fail st2
      | .fin pkgs frames => if c = 0 then .budgetNull pkgs frames else .success pkgs frames
      | .cont st2 => mainLoop vc (c + 1) st2

/-- Iteration counter of the main loop: number of executed loop bodies. -/
def mainLoopIters (vc : String → String → Int) : Nat → SolverState → Nat
  | 0, _ => 0
  | 1, _ => 0
  | c + 2, st =>
      match step vc st with
      | .brk _ => 1
      | .fin _ _ => 1
      | .cont st2 => 1 + mainLoopIters vc (c + 1) st2

/-- Unwinding of the budget-overflow handler (dpkg.c lines 1292-1318): step
back one frame when the pointer has no selection, then walk towards the
head uninstalling every selected frame (frames without a selection are
skipped with a diagnostic). -/
def budgetUnwind (vc : String → String → Int) (st : SolverState) : DpkgPackages :=
  let walk :=
    if st.fr.current.cur.isSome then st.fr.current :: st.fr.before else st.fr.before
  walk.foldl
    (fun u f =>
      match f.cur with
      | none => u
      | some i => uninstall vc u (f.instone.getD i "")) st.pkgs

/-- Success handler (dpkg.c lines 1320-1340): memoize YES on the chosen
provider of the initial frame, then walk the frontier from the tail to the
head, recording the chosen provider's name in the `mayaffect` of every
frame selection seen with `installed == 1`, and uninstalling every
selection.  Returns `none` where the C code would dereference a null
cursor. -/
def successHandler (vc : String → String → Int) (pkgs : DpkgPackages)
    (frames : List IdFrame) : Option DpkgPackages := do
  let headF ← frames.head?
  let ci ← headF.cur
  let chosen ← headF.instone.get? ci
  let u0 := updatePkg pkgs chosen (fun c => { c with installable := .yes })
  frames.reverse.foldlM
    (fun u f => do
      let i ← f.cur
      let sel ← f.instone.get? i
      let u1 :=
        if (getCpkg u sel).installed = 1 then
          updatePkg u sel (fun c => { c with mayaffect := chosen :: c.mayaffect })
        else u
      pure (uninstall vc u1 sel)) u0

/-- Initial solver state: the frontier holds the single frame built by
`insert_instonelist(NULL, instoneof)`. -/
def initSolver (pkgs : DpkgPackages) (instoneof : List String) : SolverState :=
  { pkgs := pkgs
    fr := { before := [], current := mkFrame 0 instoneof, after := [] }
    nextId := 1 }

/-- The installability check (`checkinstallable`): short-circuit on a
memoized YES among the alternatives, otherwise run the main loop on a
frontier holding the single initial frame and dispatch on its exit.
`none` marks the two exits on which the C code would crash. -/
def checkinstallable (vc : String → String → Int) (pkgs : DpkgPackages)
    (instoneof : List String) : Option (Bool × DpkgPackages) :=
  if instoneof.any (fun n => (getCpkg pkgs n).installable == .yes) then some (true, pkgs)
  else
    match mainLoop vc 10000000 (initSolver pkgs instoneof) with
    | .budget st2 => some (false, budgetUnwind vc st2)
    | .budgetNull _ _ => none
    | .success u frames =>
        match successHandler vc u frames with
        | some u2 => some (true, u2)
        | none => none
    | .fail st2 => some (false, st2.pkgs)

/-- Check a package by name (`checkinstallable2`): an absent name is
reported as not installable without touching the universe. -/
def checkinstallable2 (vc : String → String → Int) (pkgs : DpkgPackages) (pkgname : String) :
    Option (Bool × DpkgPackages) :=
  match tblLookup pkgs.packages pkgname with
  | none => some (false, pkgs)
  | some _ => checkinstallable vc pkgs [pkgname]

/-! ## Priority parsing (dpkg.c lines 54-61, 380-390)

`read_package` scans the `priorities` array with
`for (i = 0; priorities[i] != NULL; i++) { if (strcasecmp(priorities[i], e->value)) break; }`
and aborts through `die("read_package: unknown priority")` only when the
scan falls off the end of the array. -/

/-- The priority table (`priorities`). -/
def priorities : List String := ["required", "important", "standard", "optional", "extra"]

/-- ASCII lower-casing of one byte (`tolower`). -/
def lowerChar (c : Char) : Char :=
  if c.isUpper then Char.ofNat (c.toNat + 32) else c

/-- Case-insensitive string equality (`strcasecmp(a, b) == 0`). -/
def strcaseeq (a b : String) : Bool := a.data.map lowerChar == b.data.map lowerChar

/-- The scan loop over the remaining table entries, `i` being the index
of the head entry: stop at the first table entry that compares unequal to
the field value (the C test `if (strcasecmp(...))` breaks on a non-zero,
i.e. unequal, comparison), or at the end of the table. -/
def priorityScan (v : String) : List String → Nat → Nat
  | [], i => i
  | p :: ps, i => if ¬ strcaseeq p v then i else priorityScan v ps (i + 1)

/-- Outcome of the `Priority:` handler of `read_package`: the resulting
rank, or `none` when the code would `die` (scan ran off the table). -/
def readPriority (v : String) : Option Nat :=
  let i := priorityScan v priorities 0
  if i < priorities.length then some i else none

/-! ## Suite notes and the undo journal (dpkg.c lines 1564-1933)

`dpkg_source` objects are owned by the source catalogue and referenced by
pointer from notes and snapshots; `suid` embeds that pointer identity.
`ownerArchnames`/`packages` embed `src->owner->archname[]` and
`src->packages[]` (per owner arch index). -/

/-- A source package (`struct dpkg_source` plus the owner data the suite
operations read through `src->owner`). -/
structure DpkgSource where
  suid : Nat
  package : String
  version : String
  fake : Bool
  ownerArchnames : List String
  packages : List (List DpkgPackage)
deriving DecidableEq, Repr

/-- A source note (`struct dpkg_source_note`): the per-arch binary lists
claimed by the source.  `binaries = none` embeds the NULL-binaries marker
note built by `save_empty_source_note`. -/
structure SourceNote where
  source : DpkgSource
  binaries : Option (List (List DpkgPackage))
deriving DecidableEq, Repr

/-- The per-arch binary lists of a note (empty for a marker note). -/
def noteBins (nb : SourceNote) : List (List DpkgPackage) := nb.binaries.getD []

/-- A suite note (`struct dpkg_sources_note`): the source-note table, one
universe per architecture, and the undo journal (a list of journal
entries, each a list of snapshots in save order). -/
structure SourcesNote where
  sources : List (String × SourceNote)
  nArches : Nat
  archnames : List String
  pkgs : List DpkgPackages
  undo : List (List SourceNote)
deriving DecidableEq, Repr

/-- Placeholder universe (see `noPackage`). -/
def noUniverse : DpkgPackages :=
  { arch := "", packages := [], virtualpkgs := [], nextUid := 0 }

/-- Fresh suite note (`new_sources_note`). -/
def new_sources_note (archname : List String) : SourcesNote :=
  { sources := []
    nArches := archname.length
    archnames := archname
    pkgs := archname.map (fun a => { arch := a, packages := [], virtualpkgs := [], nextUid := 0 })
    undo := [] }

/-- Fresh note for a source (`new_source_note`). -/
def new_source_note (src : DpkgSource) (n_arches : Nat) : SourceNote :=
  { source := src, binaries := some (List.replicate n_arches []) }

/-- Open a new journal entry (`new_op`). -/
def new_op (sn : SourcesNote) : SourcesNote :=
  { sn with undo := [] :: sn.undo }

/-- Snapshot a note into the current journal entry (`save_source_note`):
scan the entry for a snapshot of the same source object (pointer
comparison `(*where)->value->source == srcn->source`); the first save
wins, later saves return early; a new snapshot is appended at the tail of
the entry.  The C code asserts a journal entry is open. -/
def save_source_note (sn : SourcesNote) (srcn : SourceNote) : SourcesNote :=
  match sn.undo with
  | [] => sn
  | entry :: rest =>
      if entry.any (fun s => s.source.suid = srcn.source.suid) then sn
      else { sn with undo := (entry ++ [srcn]) :: rest }

/-- Snapshot the absence of a source (`save_empty_source_note`): same
first-save-wins scan, appending a marker note with NULL binaries. -/
def save_empty_source_note (sn : SourcesNote) (src : DpkgSource) : SourcesNote :=
  match sn.undo with
  | [] => sn
  | entry :: rest =>
      if entry.any (fun s => s.source.suid = src.suid) then sn
      else { sn with undo := (entry ++ [{ source := src, binaries := none }]) :: rest }

/-- Remove a note's binaries of one arch from a universe
(`remove_binaries_by_arch`): arch-all binaries are kept as leftovers when
`skipArchAll` (`SKIP_ARCHALL`), every other binary is looked up and
removed from the universe.  A failed lookup would crash the C code inside
`remove_package`; the embedding skips it. -/
def remove_binaries_by_arch (u : DpkgPackages) (bins : List DpkgPackage)
    (skipArchAll : Bool) : DpkgPackages × List DpkgPackage :=
  bins.foldl
    (fun acc p =>
      if skipArchAll && p.arch_all then (acc.1, acc.2 ++ [p])
      else
        match tblLookup acc.1.packages p.package with
        | none => acc
        | some cpkg => (remove_package acc.1 cpkg, acc.2))
    (u, [])

/-- Remove a note's binaries from every arch (`DO_ARCHALL` loops of
`upgrade_source`, `remove_source` and `undo_change`). -/
def remove_binaries_all (pkgs : List DpkgPackages) (bins : List (List DpkgPackage)) :
    List DpkgPackages :=
  (List.range bins.length).foldl
    (fun ps i =>
      ps.set i (remove_binaries_by_arch (ps.getD i noUniverse) (bins.getD i []) false).1)
    pkgs

/-- Replace one arch list inside a note. -/
def noteSetArch (nb : SourceNote) (i : Nat) (l : List DpkgPackage) : SourceNote :=
  { nb with binaries := nb.binaries.map (fun b => b.set i l) }

/-- Add the binaries of `src` for one arch (`add_binaries_by_arch`): map
the suite arch name to the owner arch index; for every binary (skipping
arch-all ones under `SKIP_ARCHALL`), resolve a name collision first — the
owning note of the present binary is snapshotted, and the binary is
removed from the universe and delisted from that note — then add the
binary to the universe and prepend it to the claiming note's list.
`undoable` only selects a diagnostic in C and is ignored here. -/
def add_binaries_by_arch (sn : SourcesNote) (srcName : String) (src : DpkgSource)
    (archnum : Nat) (undoable : Bool) (skipArchAll : Bool) : SourcesNote :=
  let _ := undoable
  let archname := sn.archnames.getD archnum ""
  match src.ownerArchnames.indexOf? archname with
  | none => sn
  | some origarchnum =>
      (src.packages.getD origarchnum []).foldl
        (fun sn0 p =>
          if skipArchAll && p.arch_all then sn0
          else
            let sn1 :=
              match tblLookup (sn0.pkgs.getD archnum noUniverse).packages p.package with
              | none => sn0
              | some cpkg =>
                  match tblLookup sn0.sources cpkg.pkg.source with
                  | none => sn0
                  | some srcnB =>
                      let snA := save_source_note sn0 srcnB
                      let u2 := remove_package (snA.pkgs.getD archnum noUniverse) cpkg
                      let snB := { snA with pkgs := snA.pkgs.set archnum u2 }
                      { snB with
                          sources := tblUpdate snB.sources cpkg.pkg.source
                            (fun nb =>
                              noteSetArch nb archnum
                                (deleteFirstBy (fun q => q == cpkg.pkg)
                                  ((noteBins nb).getD archnum []))) }
            let u3 := add_package (sn1.pkgs.getD archnum noUniverse) p
            let sn2 := { sn1 with pkgs := sn1.pkgs.set archnum u3 }
            { sn2 with
                sources := tblUpdate sn2.sources srcName
                  (fun nb => noteSetArch nb archnum (p :: (noteBins nb).getD archnum [])) })
        sn

/-- Upgrade a source (`upgrade_source`): open a journal entry; remove and
snapshot the old note of the same name (removing all its binaries), or
save an empty marker; register a fresh note and add the binaries of the
new source on every arch. -/
def upgrade_source (sn : SourcesNote) (src : DpkgSource) : SourcesNote :=
  let sn0 := new_op sn
  let rem := tblRemove sn0.sources src.package
  let sn1 : SourcesNote := { sn0 with sources := rem.2 }
  let sn2 :=
    match rem.1 with
    | some note =>
        let snA := save_source_note sn1 note
        { snA with pkgs := remove_binaries_all snA.pkgs (noteBins note) }
    | none => save_empty_source_note sn1 src
  let fresh := new_source_note src sn2.nArches
  let sn3 := { sn2 with sources := tblAdd sn2.sources src.package fresh }
  (List.range sn3.nArches).foldl
    (fun acc i => add_binaries_by_arch acc src.package src i true false) sn3

/-- Upgrade one arch of a source (`upgrade_arch`): snapshot the existing
note, then replace the non-arch-all binaries of that arch (arch-all
binaries stay with the note).  The C code asserts the note exists and
dies on an unknown arch; both branches leave the state unchanged here. -/
def upgrade_arch (sn : SourcesNote) (src : DpkgSource) (arch : String) : SourcesNote :=
  match tblLookup sn.sources src.package with
  | none => sn
  | some srcn =>
      let sn0 := new_op sn
      let sn1 := save_source_note sn0 srcn
      match sn1.archnames.indexOf? arch with
      | none => sn1
      | some archnum =>
          let r := remove_binaries_by_arch (sn1.pkgs.getD archnum noUniverse)
                     ((noteBins srcn).getD archnum []) true
          let sn2 : SourcesNote :=
            { sn1 with
                pkgs := sn1.pkgs.set archnum r.1
                sources := tblUpdate sn1.sources src.package
                  (fun nb => noteSetArch nb archnum r.2) }
          add_binaries_by_arch sn2 src.package src archnum true true

/-- Remove a source (`remove_source`): delist the note, open a journal
entry, snapshot the note, and remove its binaries everywhere.  The C code
asserts the note exists. -/
def remove_source (sn : SourcesNote) (name : String) : SourcesNote :=
  let rem := tblRemove sn.sources name
  match rem.1 with
  | none => sn
  | some srcn =>
      let sn1 : SourcesNote := { sn with sources := rem.2 }
      let sn2 := new_op sn1
      let sn3 := save_source_note sn2 srcn
      { sn3 with pkgs := remove_binaries_all sn3.pkgs (noteBins srcn) }

/-- Whether an undo is possible (`can_undo`). -/
def can_undo (sn : SourcesNote) : Bool := ¬ sn.undo.isEmpty

/-- Roll back the most recent operation (`undo_change`): pop the newest
journal entry and process its snapshots in order — remove the current
note of that source name together with its binaries, then re-install the
snapshot (or nothing, for an empty marker). -/
def undo_change (sn : SourcesNote) : SourcesNote :=
  match sn.undo with
  | [] => sn
  | entry :: rest =>
      entry.foldl
        (fun sn0 srcnO =>
          let rem := tblRemove sn0.sources srcnO.source.package
          let sn1 : SourcesNote := { sn0 with sources := rem.2 }
          let sn2 :=
            match rem.1 with
            | some c => { sn1 with pkgs := remove_binaries_all sn1.pkgs (noteBins c) }
            | none => sn1
          match srcnO.binaries with
          | none => sn2
          | some bins =>
              let sn3 : SourcesNote :=
                { sn2 with sources := tblAdd sn2.sources srcnO.source.package srcnO }
              { sn3 with
                  pkgs := (List.range sn3.nArches).foldl
                    (fun ps i =>
                      ps.set i ((bins.getD i []).foldl add_package (ps.getD i noUniverse)))
                    sn3.pkgs })
        { sn with undo := rest }

/-- Commit (`commit_changes`): discard the journal. -/
def commit_changes (sn : SourcesNote) : SourcesNote :=
  { sn with undo := [] }

/-! ## Verification-side definitions for the solver

These definitions name the quantities the solver theorems speak about:
the selection of a frame, the install multiset of a frontier, and the
loop invariant tying the counter state to that multiset. -/

/-- The collected package currently selected by a frame
(`I1CUR(f)->value`). -/
def selOf (f : IdFrame) : String := f.instone.getD (f.cur.getD 0) ""

/-- Fold of `install` over a list of selections. -/
def applyInstalls (vc : String → String → Int) (u : DpkgPackages) (l : List String) :
    DpkgPackages :=
  l.foldl (install vc) u

/-- Fold of `uninstall` over a list of selections. -/
def applyUninstalls (vc : String → String → Int) (u : DpkgPackages) (l : List String) :
    DpkgPackages :=
  l.foldl (uninstall vc) u

/-- A frame with a well-formed selection. -/
def frameSel (f : IdFrame) : Prop :=
  f.cur.isSome = true ∧ f.cur.getD 0 < f.instone.length

/-- The selections counted in the package counters at a loop head: every
frame before the pointer, plus the pointer frame when its cursor is set. -/
def sels (fr : Frontier) : List String :=
  fr.before.reverse.map selOf ++ (if fr.current.cur.isSome then [selOf fr.current] else [])

/-- The loop-head invariant of `checkinstallable`: the counter state is
exactly the fold of `install` over the counted selections, frames behind
the pointer have no cursor, frames before it have valid selections, and
the head frame still carries the caller's alternatives. -/
def SolverInv (vc : String → String → Int) (σ₀ : DpkgPackages) (ins : List String)
    (st : SolverState) : Prop :=
  st.pkgs = applyInstalls vc σ₀ (sels st.fr) ∧
  (∀ f ∈ st.fr.after, f.cur = none) ∧
  (∀ f ∈ st.fr.before, frameSel f) ∧
  (st.fr.current.cur.isSome = true →
    st.fr.current.cur.getD 0 < st.fr.current.instone.length) ∧
  (st.fr.toList.headD (mkFrame 0 [])).instone = ins

/-- What each exit of one loop iteration guarantees. -/
def StepOut (vc : String → String → Int) (σ₀ : DpkgPackages) (ins : List String) :
    StepRes → Prop
  | .cont st2 => SolverInv vc σ₀ ins st2
  | .brk st2 => st2.pkgs = σ₀
  | .fin u2 frames =>
      u2 = applyInstalls vc σ₀ (frames.map selOf) ∧
      (∀ f ∈ frames, frameSel f) ∧
      (frames.headD (mkFrame 0 [])).instone = ins ∧ frames ≠ []

/-- What each exit of the whole loop guarantees. -/
def LoopOut (vc : String → String → Int) (σ₀ : DpkgPackages) (ins : List String) :
    LoopRes → Prop
  | .budget st2 => SolverInv vc σ₀ ins st2
  | .budgetNull _ _ => True
  | .success u2 frames =>
      u2 = applyInstalls vc σ₀ (frames.map selOf) ∧
      (∀ f ∈ frames, frameSel f) ∧
      (frames.headD (mkFrame 0 [])).instone = ins ∧ frames ≠ []
  | .fail st2 => st2.pkgs = σ₀

/-- State of the solver just before the common tail of a loop iteration
(`stepGo`): the counters reflect exactly the frames before the pointer. -/
def PreGo (vc : String → String → Int) (σ₀ : DpkgPackages) (ins : List String)
    (u : DpkgPackages) (fr : Frontier) : Prop :=
  u = applyInstalls vc σ₀ (fr.before.reverse.map selOf) ∧
  (∀ f ∈ fr.after, f.cur = none) ∧
  (∀ f ∈ fr.before, frameSel f) ∧
  (fr.toList.headD (mkFrame 0 [])).instone = ins

/-- One step of the success walk: record `chosen` in the `mayaffect` of
the frame selection when its `installed` counter is exactly 1, then
uninstall the selection. -/
def swpStep (vc : String → String → Int) (chosen : String) (u : DpkgPackages)
    (f : IdFrame) : DpkgPackages :=
  uninstall vc
    (if (getCpkg u (selOf f)).installed = 1 then
      updatePkg u (selOf f) (fun c => { c with mayaffect := chosen :: c.mayaffect })
    else u) (selOf f)

/-- The success walk of `checkinstallable` as a pure fold (the Option
plumbing of `successHandler` stripped; the two coincide whenever every
frame has a valid selection). -/
def successWalkP (vc : String → String → Int) (chosen : String) (u : DpkgPackages)
    (frames : List IdFrame) : DpkgPackages :=
  frames.foldl (swpStep vc chosen) u

/-- Functions touching only the memoization fields of a collected
package (installability and `mayaffect`). -/
def MemoOnly (g : CollectedPackage → CollectedPackage) : Prop :=
  ∀ x, (g x).uid = x.uid ∧ (g x).pkg = x.pkg ∧ (g x).installed = x.installed ∧
    (g x).conflicted = x.conflicted

/-- Update of the two memoization fields of a collected package through
the given field transformations; the success handler only ever applies
updates of this shape. -/
def memoUpd (F1 : Installability → Installability) (F2 : List String → List String)
    (c : CollectedPackage) : CollectedPackage :=
  { c with installable := F1 c.installable, mayaffect := F2 c.mayaffect }

/-- The universe produced by the success handler, phrased over the pure
walk: memoize YES on the chosen provider and walk the frontier from the
tail. -/
def successOut (vc : String → String → Int) (chosen : String) (u : DpkgPackages)
    (frames : List IdFrame) : DpkgPackages :=
  successWalkP vc chosen (updatePkg u chosen (fun c => { c with installable := .yes }))
    frames.reverse

/-! ## Concrete fixtures used by the closed evaluation theorems -/

/-- Trivial version oracle used in concrete runs. -/
def vcZero : String → String → Int := fun _ _ => 0

/-- Unversioned dependency atom on a name. -/
def fixDep (n : String) : Dependency := { package := n, op := .noop, version := "" }

/-- Binary package fixture. -/
def fixPkg (n : String) (deps1 : List (List Dependency)) (confl : List Dependency)
    (prov : List String) : DpkgPackage :=
  { noPackage with
      package := n, version := "1", source := n, source_ver := "1"
      depends1 := deps1, conflicts := confl, provides := prov }

/-- Empty i386 universe. -/
def fixEmptyU : DpkgPackages :=
  { arch := "i386", packages := [], virtualpkgs := [], nextUid := 0 }

/-- Universe with `a` depending on `b`, and `b`. -/
def fixAB : DpkgPackages :=
  add_package (add_package fixEmptyU (fixPkg "a" [[fixDep "b"]] [] [])) (fixPkg "b" [] [] [])

/-- Universe with `a` depending on the unprovided `z`. -/
def fixAZ : DpkgPackages :=
  add_package fixEmptyU (fixPkg "a" [[fixDep "z"]] [] [])

/-- Universe with `a`, whose installability is memoized YES. -/
def fixMemoU : DpkgPackages :=
  updatePkg (add_package fixEmptyU (fixPkg "a" [] [] []))
    "a" (fun c => { c with installable := .yes })

/-- Universe with `a` depending on virtual `x` provided by `b`. -/
def fixVirt : DpkgPackages :=
  add_package (add_package fixEmptyU (fixPkg "a" [[fixDep "x"]] [] [])) (fixPkg "b" [] [] ["x"])

/-- Initial solver state of a run on `fixAB` from `a`. -/
def fixABst0 : SolverState := initSolver fixAB ["a"]

/-- Exit of the `fixAB` run. -/
def fixABloop : LoopRes := mainLoop vcZero 10000000 fixABst0

/-- Universe component of the `fixAB` success exit. -/
def fixABsuccU : DpkgPackages :=
  match fixABloop with
  | .success u _ => u
  | _ => noUniverse

/-- Frontier component of the `fixAB` success exit. -/
def fixABsuccF : List IdFrame :=
  match fixABloop with
  | .success _ f => f
  | _ => []

/-- Universe returned by the `fixAB` check of `a`. -/
def fixABres : DpkgPackages :=
  ((checkinstallable vcZero fixAB ["a"]).getD (false, noUniverse)).2

/-- Binary package fixture for suite tests. -/
def fixBin (n src : String) (aall : Bool) : DpkgPackage :=
  { noPackage with
      package := n, version := "1", source := src, source_ver := "1", arch_all := aall }

/-- Source `s1` version 1.0 shipping `b1`. -/
def fixS1v1 : DpkgSource :=
  { suid := 100, package := "s1", version := "1.0", fake := false
    ownerArchnames := ["i386"], packages := [[fixBin "b1" "s1" false]] }

/-- Source `s1` version 1.1 shipping `b1` and `b2`. -/
def fixS1v2 : DpkgSource :=
  { suid := 101, package := "s1", version := "1.1", fake := false
    ownerArchnames := ["i386"], packages := [[fixBin "b1" "s1" false, fixBin "b2" "s1" false]] }

/-- Source `s2` stealing binary `b1`. -/
def fixS2v1 : DpkgSource :=
  { suid := 102, package := "s2", version := "1.0", fake := false
    ownerArchnames := ["i386"], packages := [[fixBin "b1" "s2" false]] }

/-- Fresh one-arch suite note. -/
def fixSn0 : SourcesNote := new_sources_note ["i386"]

/-- Suite note holding `s1` 1.0, journal committed. -/
def fixSnA : SourcesNote := commit_changes (upgrade_source fixSn0 fixS1v1)

/-- Binary `b1` version 2 of source `s1` 1.1. -/
def cexB1v2 : DpkgPackage :=
  { noPackage with package := "b1", version := "2", source := "s1", source_ver := "1.1" }

/-- Binary `b1` version 3 of source `s1` 1.1 (a second upload of the same
binary name, as happens while two versions coexist in an archive index). -/
def cexB1v3 : DpkgPackage :=
  { noPackage with package := "b1", version := "3", source := "s1", source_ver := "1.1" }

/-- Source `s1` version 1.1 shipping both uploads of `b1` on i386. -/
def cexS1v2 : DpkgSource :=
  { suid := 101, package := "s1", version := "1.1", fake := false
    ownerArchnames := ["i386"], packages := [[cexB1v2, cexB1v3]] }

/-- One mutation followed by one undo on the committed `s1` 1.0 state. -/
def cexUndone : SourcesNote := undo_change (upgrade_source fixSnA cexS1v2)

/-- The i386 binaries recorded for `s1` after the mutation+undo pair. -/
def cexBinsUndone : List DpkgPackage :=
  (noteBins ((tblLookup cexUndone.sources "s1").getD (new_source_note cexS1v2 0))).getD 0 []

/-- The i386 binaries recorded for `s1` before the mutation. -/
def cexBinsOrig : List DpkgPackage :=
  (noteBins ((tblLookup fixSnA.sources "s1").getD (new_source_note cexS1v2 0))).getD 0 []

/-- Specification-side description of what deleting one provider does to
one virtual bucket: drop the first reference, delete the bucket when it
becomes empty.  Used to state the claim about `remove_package`. -/
def bucketRemove (b : Option (List Provision)) (cN : String) : Option (List Provision) :=
  match b with
  | none => none
  | some l =>
      let l2 := deleteFirstBy (fun pr => pr.pkg == cN) l
      if l2.isEmpty then none else some l2

/-- The `fixVirt` universe after a successful check of `a` (so `a` is
memoized YES and `b` carries `a` in `mayaffect`). -/
def fixVirtChecked : DpkgPackages :=
  ((checkinstallable2 vcZero fixVirt "a").getD (false, noUniverse)).2

/-! # Theorems

Shared lemmas about the association-list tables, then one theorem (plus
witness or counterexample) per specification claim. -/

theorem tblLookup_mem {α : Type} {t : List (String × α)} {n : String} {v : α}
    (h : tblLookup t n = some v) : (n, v) ∈ t := by
  induction t with
  | nil => simp [tblLookup] at h
  | cons e t ih =>
      rw [tblLookup] at h
      by_cases he : e.1 = n
      · rw [if_pos he] at h
        cases h
        have : e = (n, e.2) := by
          rw [← he]
        rw [this]
        exact List.mem_cons_self _ _
      · rw [if_neg he] at h
        exact List.mem_cons_of_mem _ (ih h)

theorem tblLookup_eq_none_of_not_mem {α : Type} {t : List (String × α)} {n : String}
    (h : n ∉ t.map Prod.fst) : tblLookup t n = none := by
  induction t with
  | nil => rfl
  | cons e t ih =>
      rw [tblLookup, if_neg, ih]
      · intro hc
        exact h (by simp [hc])
      · intro hc
        exact h (by simp [hc])

theorem tblLookup_update {α : Type} (t : List (String × α)) (k : String) (f : α → α)
    (n : String) :
    tblLookup (tblUpdate t k f) n =
      if k = n then (tblLookup t n).map f else tblLookup t n := by
  induction t with
  | nil => simp [tblUpdate, tblLookup]
  | cons e t ih =>
      rw [tblUpdate]
      by_cases he : e.1 = k
      · rw [if_pos he, tblLookup, tblLookup]
        by_cases hn : k = n
        · rw [if_pos (he.trans hn), if_pos (he.trans hn), if_pos hn]
          rfl
        · rw [if_neg (fun hc => hn (he.symm.trans hc)), if_neg hn,
            if_neg (fun hc => hn (he.symm.trans hc))]
      · rw [if_neg he, tblLookup, tblLookup]
        by_cases hn : e.1 = n
        · rw [if_pos hn, if_pos hn, if_neg (fun hc => he (hn.trans hc.symm))]
        · rw [if_neg hn, if_neg hn, ih]

theorem tblUpdate_keys {α : Type} (t : List (String × α)) (k : String) (f : α → α) :
    (tblUpdate t k f).map Prod.fst = t.map Prod.fst := by
  induction t with
  | nil => rfl
  | cons e t ih =>
      rw [tblUpdate]
      by_cases he : e.1 = k
      · rw [if_pos he]
        simp
      · rw [if_neg he]
        simp [ih]

theorem tblRemove_fst {α : Type} (t : List (String × α)) (n : String) :
    (tblRemove t n).1 = tblLookup t n := by
  induction t with
  | nil => rfl
  | cons e t ih =>
      rw [tblRemove, tblLookup]
      by_cases he : e.1 = n
      · rw [if_pos he, if_pos he]
      · rw [if_neg he, if_neg he]
        exact ih

theorem tblRemove_lookup_ne {α : Type} (t : List (String × α)) {n m : String} (h : m ≠ n) :
    tblLookup (tblRemove t n).2 m = tblLookup t m := by
  induction t with
  | nil => rfl
  | cons e t ih =>
      rw [tblRemove]
      by_cases he : e.1 = n
      · rw [if_pos he, tblLookup, if_neg (fun hc => h (hc.symm.trans he))]
      · rw [if_neg he]
        rw [tblLookup, tblLookup]
        by_cases hm : e.1 = m
        · rw [if_pos hm, if_pos hm]
        · rw [if_neg hm, if_neg hm]
          exact ih

theorem tblRemove_keys_sub {α : Type} (t : List (String × α)) (n : String) :
    ∀ m ∈ ((tblRemove t n).2.map Prod.fst), m ∈ t.map Prod.fst := by
  induction t with
  | nil => intro m hm; exact absurd hm (by simp [tblRemove])
  | cons e t ih =>
      intro m hm
      rw [tblRemove] at hm
      by_cases he : e.1 = n
      · rw [if_pos he] at hm
        exact List.mem_cons_of_mem _ hm
      · rw [if_neg he] at hm
        simp only [List.map_cons, List.mem_cons] at hm ⊢
        rcases hm with h | h
        · exact Or.inl h
        · exact Or.inr (ih m h)

theorem tblRemove_lookup_self {α : Type} {t : List (String × α)} {n : String}
    (hnd : (t.map Prod.fst).Nodup) : tblLookup (tblRemove t n).2 n = none := by
  induction t with
  | nil => rfl
  | cons e t ih =>
      rw [tblRemove]
      simp only [List.map_cons, List.nodup_cons] at hnd
      by_cases he : e.1 = n
      · rw [if_pos he]
        apply tblLookup_eq_none_of_not_mem
        rw [← he]
        exact hnd.1
      · rw [if_neg he, tblLookup, if_neg he]
        exact ih hnd.2

theorem tblRemove_nodup {α : Type} {t : List (String × α)} (n : String)
    (hnd : (t.map Prod.fst).Nodup) : ((tblRemove t n).2.map Prod.fst).Nodup := by
  induction t with
  | nil => exact hnd
  | cons e t ih =>
      rw [tblRemove]
      simp only [List.map_cons, List.nodup_cons] at hnd
      by_cases he : e.1 = n
      · rw [if_pos he]
        exact hnd.2
      · rw [if_neg he]
        simp only [List.map_cons, List.nodup_cons]
        refine ⟨fun hc => hnd.1 (tblRemove_keys_sub t n _ hc), ih hnd.2⟩

theorem tblLookup_add_self {α : Type} (t : List (String × α)) (k : String) (v : α) :
    tblLookup (tblAdd t k v) k = some v := by
  rw [tblAdd, tblLookup, if_pos rfl]

theorem tblLookup_add_ne {α : Type} (t : List (String × α)) (k : String) (v : α)
    {n : String} (h : k ≠ n) : tblLookup (tblAdd t k v) n = tblLookup t n := by
  rw [tblAdd, tblLookup, if_neg h]

/-- C3: when some alternative passed to the installability check carries a
memoized `installability = YES`, `checkinstallable` returns true
immediately — the search loop is never entered and the returned universe
is the argument itself, unchanged. -/
theorem c3_memo_short_circuit (vc : String → String → Int) (pkgs : DpkgPackages)
    (instoneof : List String)
    (h : ∃ n ∈ instoneof, (getCpkg pkgs n).installable = .yes) :
    checkinstallable vc pkgs instoneof = some (true, pkgs) := by
  obtain ⟨n, hn, hy⟩ := h
  have hany : instoneof.any (fun n => (getCpkg pkgs n).installable == .yes) = true := by
    rw [List.any_eq_true]
    exact ⟨n, hn, by rw [hy]; rfl⟩
  rw [checkinstallable, if_pos hany]

/-- Closed witness for `c3_memo_short_circuit` on a one-package universe
whose package is memoized YES. -/
theorem c3_memo_short_circuit_witness :
    checkinstallable vcZero fixMemoU ["a"] = some (true, fixMemoU) :=
  c3_memo_short_circuit vcZero fixMemoU ["a"] ⟨"a", by decide, by decide⟩

/-- C10: checking installability of a name that is absent from the
universe (`checkinstallable2`) reports not-installable without an error
and returns the universe unchanged. -/
theorem c10_absent_name_not_installable (vc : String → String → Int)
    (pkgs : DpkgPackages) (pkgname : String)
    (h : tblLookup pkgs.packages pkgname = none) :
    checkinstallable2 vc pkgs pkgname = some (false, pkgs) := by
  rw [checkinstallable2, h]

/-- Closed witness for `c10_absent_name_not_installable`. -/
theorem c10_absent_name_not_installable_witness :
    checkinstallable2 vcZero fixAB "zzz" = some (false, fixAB) :=
  c10_absent_name_not_installable vcZero fixAB "zzz" (by decide)

theorem priorityScan_le_one (v : String) : priorityScan v priorities 0 ≤ 1 := by
  show priorityScan v ["required", "important", "standard", "optional", "extra"] 0 ≤ 1
  rw [priorityScan]
  by_cases h1 : strcaseeq "required" v
  · rw [if_neg (not_not_intro h1), priorityScan]
    by_cases h2 : strcaseeq "important" v
    · exfalso
      rw [strcaseeq] at h1 h2
      have e1 : "required".data.map lowerChar = v.data.map lowerChar := eq_of_beq h1
      have e2 : "important".data.map lowerChar = v.data.map lowerChar := eq_of_beq h2
      have : "required".data.map lowerChar = "important".data.map lowerChar := e1.trans e2.symm
      exact absurd this (by decide)
    · rw [if_pos h2]
  · rw [if_pos h1]
    decide

/-- C8 (refuting the claim): the `Priority:` scan of `read_package` never
reaches `die("read_package: unknown priority")` — for the unknown value
"junk" it accepts rank 0, and for every field value whatsoever the scan
stops within the table, because the C test `if (strcasecmp(priorities[i],
e->value)) break;` breaks on the first priority that does NOT equal the
value (the comparison result is used un-negated), so at most the first
two entries are ever examined. -/
theorem c8_unknown_priority_not_fatal :
    readPriority "junk" = some 0 ∧ ∀ v : String, (readPriority v).isSome = true := by
  constructor
  · decide
  · intro v
    rw [readPriority]
    have h := priorityScan_le_one v
    rw [if_pos (lt_of_le_of_lt h (by decide))]
    rfl

/-- C9: within one journal entry, snapshots are deduplicated by source
object and the first save wins — a second `save_source_note` (or
`save_empty_source_note`) for the same source is a no-op, and the first
save appends exactly the note passed to it, preserving the pre-operation
state of the touched source. -/
theorem c9_first_save_wins (sn : SourcesNote) (n1 n2 : SourceNote) (src : DpkgSource)
    (h2 : n2.source.suid = n1.source.suid) (hs : src.suid = n1.source.suid) :
    save_source_note (save_source_note sn n1) n2 = save_source_note sn n1 ∧
    save_empty_source_note (save_source_note sn n1) src = save_source_note sn n1 ∧
    save_source_note (save_empty_source_note sn src) n2 = save_empty_source_note sn src ∧
    (∀ entry rest, sn.undo = entry :: rest →
      entry.any (fun s => s.source.suid = n1.source.suid) = false →
      (save_source_note sn n1).undo = (entry ++ [n1]) :: rest) := by
  obtain ⟨srcs, nA, an, pk, undo⟩ := sn
  refine ⟨?_, ?_, ?_, ?_⟩
  · cases undo with
    | nil => simp [save_source_note]
    | cons entry rest =>
        by_cases hhit : (entry.any fun s => decide (s.source.suid = n1.source.suid)) = true
        · simp [save_source_note, h2, hhit]
        · simp [save_source_note, h2, hhit]
  · cases undo with
    | nil => simp [save_source_note, save_empty_source_note]
    | cons entry rest =>
        by_cases hhit : (entry.any fun s => decide (s.source.suid = n1.source.suid)) = true
        · simp [save_source_note, save_empty_source_note, hs, hhit]
        · simp [save_source_note, save_empty_source_note, hs, hhit]
  · cases undo with
    | nil => simp [save_source_note, save_empty_source_note]
    | cons entry rest =>
        by_cases hhit : (entry.any fun s => decide (s.source.suid = n1.source.suid)) = true
        · simp [save_source_note, save_empty_source_note, hs, h2, hhit]
        · simp [save_source_note, save_empty_source_note, hs, h2, hhit]
  · intro entry rest hu hmiss
    simp only at hu
    subst hu
    simp only [save_source_note]
    rw [if_neg (by simp [hmiss])]

/-- Closed witness for `c9_first_save_wins`: saving a note of source `s1`
twice into a fresh journal entry keeps only the first snapshot. -/
theorem c9_first_save_wins_witness :
    save_source_note (save_source_note (new_op fixSn0) (new_source_note fixS1v1 1))
        (new_source_note fixS1v1 1)
      = save_source_note (new_op fixSn0) (new_source_note fixS1v1 1) :=
  (c9_first_save_wins (new_op fixSn0) (new_source_note fixS1v1 1)
    (new_source_note fixS1v1 1) fixS1v1 rfl rfl).1

theorem tblUpdate_absent {α : Type} {t : List (String × α)} {n : String}
    (h : tblLookup t n = none) (f : α → α) : tblUpdate t n f = t := by
  induction t with
  | nil => rfl
  | cons e t ih =>
      rw [tblLookup] at h
      rw [tblUpdate]
      by_cases he : e.1 = n
      · rw [if_pos he] at h
        cases h
      · rw [if_neg he] at h
        rw [if_neg he, ih h]

theorem invalidateOne_eq (u : DpkgPackages) (aff : String) :
    invalidateOne u aff = updatePkg u aff (fun c => { c with installable := .unknown }) := by
  rw [invalidateOne]
  cases h : tblLookup u.packages aff with
  | none => rw [updatePkg, tblUpdate_absent h]
  | some _ => rfl

theorem invalidateMayaffect_lookup (l : List String) (u : DpkgPackages) (m : String) :
    tblLookup (invalidateMayaffect u l).packages m =
      if m ∈ l then (tblLookup u.packages m).map (fun c => { c with installable := .unknown })
      else tblLookup u.packages m := by
  induction l generalizing u with
  | nil => simp [invalidateMayaffect]
  | cons a t ih =>
      have step : invalidateMayaffect u (a :: t)
          = invalidateMayaffect (updatePkg u a (fun c => { c with installable := .unknown })) t := by
        rw [invalidateMayaffect, List.foldl_cons, invalidateOne_eq]
        rfl
      rw [step, ih]
      simp only [updatePkg]
      rw [tblLookup_update]
      by_cases hmt : m ∈ t
      · rw [if_pos hmt, if_pos (List.mem_cons_of_mem a hmt)]
        by_cases hma : a = m
        · rw [if_pos hma, Option.map_map]
          cases tblLookup u.packages m with
          | none => rfl
          | some c => rfl
        · rw [if_neg hma]
      · rw [if_neg hmt]
        by_cases hma : a = m
        · rw [if_pos hma, if_pos (by rw [← hma]; exact List.mem_cons_self a t)]
        · rw [if_neg hma, if_neg (by
            intro hc
            rcases List.mem_cons.mp hc with h | h
            · exact hma h.symm
            · exact hmt h)]

theorem invalidateMayaffect_keys (l : List String) (u : DpkgPackages) :
    (invalidateMayaffect u l).packages.map Prod.fst = u.packages.map Prod.fst := by
  induction l generalizing u with
  | nil => rfl
  | cons a t ih =>
      rw [invalidateMayaffect, List.foldl_cons, invalidateOne_eq]
      rw [show List.foldl invalidateOne _ t = invalidateMayaffect _ t from rfl, ih]
      rw [updatePkg]
      exact tblUpdate_keys _ _ _

theorem invalidateMayaffect_virtual (l : List String) (u : DpkgPackages) :
    (invalidateMayaffect u l).virtualpkgs = u.virtualpkgs := by
  induction l generalizing u with
  | nil => rfl
  | cons a t ih =>
      rw [invalidateMayaffect, List.foldl_cons, invalidateOne_eq]
      rw [show List.foldl invalidateOne _ t = invalidateMayaffect _ t from rfl, ih]
      rfl

theorem remove_virtualpackage_packages (u : DpkgPackages) (v cN : String) :
    (remove_virtualpackage u v cN).packages = u.packages := by
  rw [remove_virtualpackage]
  cases tblLookup u.virtualpkgs v with
  | none => rfl
  | some l =>
      by_cases he : (deleteFirstBy (fun pr => pr.pkg == cN) l).isEmpty
      · simp only [he]
        rfl
      · simp only [he]
        rfl

theorem rvpFold_packages (names : List String) (u : DpkgPackages) (cN : String) :
    ((names.foldl (fun acc v => remove_virtualpackage acc v cN) u)).packages = u.packages := by
  induction names generalizing u with
  | nil => rfl
  | cons a t ih =>
      rw [List.foldl_cons, ih, remove_virtualpackage_packages]

theorem add_virtualpackage_packages (u : DpkgPackages) (p : String) (v : Option String)
    (c : String) : (add_virtualpackage u p v c).packages = u.packages := by
  rw [add_virtualpackage]
  cases tblLookup u.virtualpkgs p with
  | none => rfl
  | some l => rfl

theorem provFold_packages (l : List String) (u : DpkgPackages) (n : String) :
    (l.foldl (fun acc v => add_virtualpackage acc v none n) u).packages = u.packages := by
  induction l generalizing u with
  | nil => rfl
  | cons a t ih => rw [List.foldl_cons, ih, add_virtualpackage_packages]

theorem add_package_packages (u : DpkgPackages) (pkg : DpkgPackage)
    (h : (tblLookup u.packages pkg.package).isSome = false) :
    (add_package u pkg).packages = tblAdd u.packages pkg.package (new_collected_package u pkg) := by
  rw [add_package, if_neg (by simp [h])]
  rw [provFold_packages, add_virtualpackage_packages]

theorem add_package_lookup_self (u : DpkgPackages) (pkg : DpkgPackage) :
    (tblLookup (add_package u pkg).packages pkg.package).isSome = true := by
  cases h : (tblLookup u.packages pkg.package).isSome with
  | true => rw [add_package, if_pos h, h]
  | false =>
      rw [add_package_packages u pkg h, tblLookup_add_self]
      rfl

theorem remove_package_packages (u : DpkgPackages) (cpkg : CollectedPackage) :
    (remove_package u cpkg).packages
      = (tblRemove (invalidateMayaffect u cpkg.mayaffect).packages cpkg.pkg.package).2 := by
  rw [remove_package]
  split
  · rfl
  · split
    · rfl
    · rw [rvpFold_packages, remove_virtualpackage_packages]

/-- C6: adding a binary package is idempotent and first-writer wins — a
second `add_package` of the same name is a no-op, and an `add_package`
over a present name leaves the universe unchanged; `remove_binary` is
idempotent on any universe with well-keyed, duplicate-free package table:
the second consecutive removal of a name returns false and changes
nothing. -/
theorem c6_add_remove_idempotent :
    (∀ (u : DpkgPackages) (pkg : DpkgPackage),
        add_package (add_package u pkg) pkg = add_package u pkg) ∧
    (∀ (u : DpkgPackages) (pkg : DpkgPackage),
        (tblLookup u.packages pkg.package).isSome = true → add_package u pkg = u) ∧
    (∀ (u : DpkgPackages) (name : String),
        (∀ e ∈ u.packages, e.2.pkg.package = e.1) →
        (u.packages.map Prod.fst).Nodup →
        (remove_binary (remove_binary u name).2 name).1 = false ∧
        (remove_binary (remove_binary u name).2 name).2 = (remove_binary u name).2) := by
  refine ⟨?_, ?_, ?_⟩
  · intro u pkg
    conv_lhs => rw [add_package]
    rw [if_pos (add_package_lookup_self u pkg)]
  · intro u pkg h
    rw [add_package, if_pos h]
  · intro u name hkm hnd
    cases hl : tblLookup u.packages name with
    | none =>
        simp only [remove_binary, hl]
        exact ⟨trivial, trivial⟩
    | some cpkg =>
        have hname : cpkg.pkg.package = name := hkm _ (tblLookup_mem hl)
        have hnone : tblLookup (remove_package u cpkg).packages name = none := by
          rw [remove_package_packages, hname]
          exact tblRemove_lookup_self (by rw [invalidateMayaffect_keys]; exact hnd)
        simp only [remove_binary, hl, hnone]
        exact ⟨trivial, trivial⟩

/-- Closed witness for `c6_add_remove_idempotent`: the two hypothesised
parts applied on the `a`/`b` universe. -/
theorem c6_add_remove_idempotent_witness :
    add_package fixAB (fixPkg "a" [] [] []) = fixAB ∧
    (remove_binary (remove_binary fixAB "a").2 "a").1 = false ∧
    (remove_binary (remove_binary fixAB "a").2 "a").2 = (remove_binary fixAB "a").2 :=
  ⟨c6_add_remove_idempotent.2.1 fixAB (fixPkg "a" [] [] []) (by decide),
   c6_add_remove_idempotent.2.2 fixAB "a" (by decide) (by decide)⟩

theorem rvp_eq_none (u : DpkgPackages) (v cN : String)
    (h : tblLookup u.virtualpkgs v = none) : remove_virtualpackage u v cN = u := by
  rw [remove_virtualpackage, h]

theorem rvp_eq_empty (u : DpkgPackages) (v cN : String) (l : List Provision)
    (h : tblLookup u.virtualpkgs v = some l)
    (he : (deleteFirstBy (fun pr => pr.pkg == cN) l).isEmpty = true) :
    remove_virtualpackage u v cN = { u with virtualpkgs := (tblRemove u.virtualpkgs v).2 } := by
  rw [remove_virtualpackage, h]
  exact if_pos he

theorem rvp_eq_update (u : DpkgPackages) (v cN : String) (l : List Provision)
    (h : tblLookup u.virtualpkgs v = some l)
    (he : (deleteFirstBy (fun pr => pr.pkg == cN) l).isEmpty = false) :
    remove_virtualpackage u v cN =
      { u with virtualpkgs :=
          tblUpdate u.virtualpkgs v (fun _ => deleteFirstBy (fun pr => pr.pkg == cN) l) } := by
  rw [remove_virtualpackage, h]
  exact if_neg (by rw [he]; exact Bool.false_ne_true)

theorem remove_virtualpackage_lookup (u : DpkgPackages) (v cN m : String)
    (hnd : (u.virtualpkgs.map Prod.fst).Nodup) :
    tblLookup (remove_virtualpackage u v cN).virtualpkgs m =
      if v = m then bucketRemove (tblLookup u.virtualpkgs v) cN
      else tblLookup u.virtualpkgs m := by
  cases hb : tblLookup u.virtualpkgs v with
  | none =>
      rw [rvp_eq_none u v cN hb]
      have hbr : bucketRemove (none : Option (List Provision)) cN = none := rfl
      rw [hbr]
      by_cases hm : v = m
      · rw [if_pos hm, ← hm, hb]
      · rw [if_neg hm]
  | some l =>
      cases he : (deleteFirstBy (fun pr => pr.pkg == cN) l).isEmpty with
      | true =>
          have hbr : bucketRemove (some l) cN = none := by
            show (if (deleteFirstBy (fun pr => pr.pkg == cN) l).isEmpty = true
                  then none else some (deleteFirstBy (fun pr => pr.pkg == cN) l)) = none
            rw [if_pos he]
          rw [rvp_eq_empty u v cN l hb he, hbr]
          show tblLookup (tblRemove u.virtualpkgs v).2 m = _
          by_cases hm : v = m
          · rw [if_pos hm, ← hm, tblRemove_lookup_self hnd]
          · rw [if_neg hm, tblRemove_lookup_ne _ (fun hc => hm hc.symm)]
      | false =>
          have hbr : bucketRemove (some l) cN
              = some (deleteFirstBy (fun pr => pr.pkg == cN) l) := by
            show (if (deleteFirstBy (fun pr => pr.pkg == cN) l).isEmpty = true
                  then none else some (deleteFirstBy (fun pr => pr.pkg == cN) l)) = _
            rw [if_neg (by rw [he]; exact Bool.false_ne_true)]
          rw [rvp_eq_update u v cN l hb he, hbr]
          show tblLookup (tblUpdate u.virtualpkgs v
            (fun _ => deleteFirstBy (fun pr => pr.pkg == cN) l)) m = _
          rw [tblLookup_update]
          by_cases hm : v = m
          · rw [if_pos hm, if_pos hm, ← hm, hb]
            rfl
          · rw [if_neg hm, if_neg hm]

theorem remove_virtualpackage_nodup (u : DpkgPackages) (v cN : String)
    (hnd : (u.virtualpkgs.map Prod.fst).Nodup) :
    ((remove_virtualpackage u v cN).virtualpkgs.map Prod.fst).Nodup := by
  cases hb : tblLookup u.virtualpkgs v with
  | none => rw [rvp_eq_none u v cN hb]; exact hnd
  | some l =>
      cases he : (deleteFirstBy (fun pr => pr.pkg == cN) l).isEmpty with
      | true =>
          rw [rvp_eq_empty u v cN l hb he]
          exact tblRemove_nodup v hnd
      | false =>
          rw [rvp_eq_update u v cN l hb he]
          show ((tblUpdate u.virtualpkgs v _).map Prod.fst).Nodup
          rw [tblUpdate_keys]
          exact hnd

theorem rvpFold_lookup (names : List String) (u : DpkgPackages) (cN m : String)
    (hvnd : (u.virtualpkgs.map Prod.fst).Nodup) (hnames : names.Nodup) :
    tblLookup ((names.foldl (fun acc v => remove_virtualpackage acc v cN) u)).virtualpkgs m =
      if m ∈ names then bucketRemove (tblLookup u.virtualpkgs m) cN
      else tblLookup u.virtualpkgs m := by
  induction names generalizing u with
  | nil => simp
  | cons a t ih =>
      rw [List.foldl_cons]
      rw [List.nodup_cons] at hnames
      rw [ih _ (remove_virtualpackage_nodup u a cN hvnd) hnames.2]
      by_cases hmt : m ∈ t
      · rw [if_pos hmt, if_pos (List.mem_cons_of_mem a hmt)]
        rw [remove_virtualpackage_lookup _ _ _ _ hvnd,
          if_neg (fun hc : a = m => hnames.1 (hc ▸ hmt))]
      · rw [if_neg hmt]
        rw [remove_virtualpackage_lookup _ _ _ _ hvnd]
        by_cases hma : a = m
        · rw [if_pos hma, if_pos (by rw [← hma]; exact List.mem_cons_self a t), hma]
        · rw [if_neg hma, if_neg (by
            intro hc
            rcases List.mem_cons.mp hc with h | h
            · exact hma h.symm
            · exact hmt h)]

theorem remove_package_virtual (u : DpkgPackages) (cpkg : CollectedPackage)
    (p : CollectedPackage)
    (h : (tblRemove (invalidateMayaffect u cpkg.mayaffect).packages cpkg.pkg.package).1 = some p)
    (hu : p.uid = cpkg.uid) :
    (remove_package u cpkg).virtualpkgs =
      (((cpkg.pkg.package :: cpkg.pkg.provides).foldl
          (fun acc v => remove_virtualpackage acc v cpkg.pkg.package)
          { invalidateMayaffect u cpkg.mayaffect with
              packages :=
                (tblRemove (invalidateMayaffect u cpkg.mayaffect).packages
                  cpkg.pkg.package).2 })).virtualpkgs := by
  rw [remove_package]
  split
  next heq => rw [h] at heq; cases heq
  next q heq =>
      rw [h] at heq
      injection heq with hq
      subst hq
      rw [if_neg (fun hc => hc hu)]
      rw [List.foldl_cons]

/-- C7: `remove_package` resets the installability memo of every
still-present package named in `mayaffect`, delists the package from the
package table, and delists it from the virtual bucket of its own name and
of each provided name, deleting buckets that become empty; all other
buckets are untouched. -/
theorem c7_remove_package_semantics (u : DpkgPackages) (name : String)
    (cpkg : CollectedPackage)
    (hl : tblLookup u.packages name = some cpkg)
    (hkm : ∀ e ∈ u.packages, e.2.pkg.package = e.1)
    (hnd : (u.packages.map Prod.fst).Nodup)
    (hvnd : (u.virtualpkgs.map Prod.fst).Nodup)
    (hpnd : (cpkg.pkg.package :: cpkg.pkg.provides).Nodup) :
    (∀ a ∈ cpkg.mayaffect, a ≠ name →
        (tblLookup (remove_package u cpkg).packages a).map (fun c => c.installable)
          = (tblLookup u.packages a).map (fun _ => Installability.unknown)) ∧
    tblLookup (remove_package u cpkg).packages name = none ∧
    (∀ v ∈ cpkg.pkg.package :: cpkg.pkg.provides,
        tblLookup (remove_package u cpkg).virtualpkgs v
          = bucketRemove (tblLookup u.virtualpkgs v) cpkg.pkg.package) ∧
    (∀ v, v ∉ cpkg.pkg.package :: cpkg.pkg.provides →
        tblLookup (remove_package u cpkg).virtualpkgs v = tblLookup u.virtualpkgs v) := by
  have hname : cpkg.pkg.package = name := hkm _ (tblLookup_mem hl)
  have hvirt1 : (invalidateMayaffect u cpkg.mayaffect).virtualpkgs = u.virtualpkgs :=
    invalidateMayaffect_virtual _ _
  have hrem1 :
      ∃ p, (tblRemove (invalidateMayaffect u cpkg.mayaffect).packages cpkg.pkg.package).1
            = some p ∧ p.uid = cpkg.uid := by
    rw [tblRemove_fst, hname, invalidateMayaffect_lookup]
    by_cases hmem : name ∈ cpkg.mayaffect
    · rw [if_pos hmem, hl]
      exact ⟨_, rfl, rfl⟩
    · rw [if_neg hmem, hl]
      exact ⟨cpkg, rfl, rfl⟩
  obtain ⟨p, hp, hpu⟩ := hrem1
  refine ⟨?_, ?_, ?_, ?_⟩
  · intro a ha hane
    rw [remove_package_packages, hname,
      tblRemove_lookup_ne _ hane, invalidateMayaffect_lookup, if_pos ha]
    cases tblLookup u.packages a with
    | none => rfl
    | some c => rfl
  · rw [remove_package_packages, hname]
    exact tblRemove_lookup_self (by rw [invalidateMayaffect_keys]; exact hnd)
  · intro v hv
    rw [remove_package_virtual u cpkg p hp hpu,
      rvpFold_lookup _ _ _ _ (by show (_ : DpkgPackages).virtualpkgs.map Prod.fst |>.Nodup
                                 rw [show ({ invalidateMayaffect u cpkg.mayaffect with
                                      packages := _ } : DpkgPackages).virtualpkgs
                                      = u.virtualpkgs from hvirt1]
                                 exact hvnd) hpnd,
      if_pos hv]
    rw [show ({ invalidateMayaffect u cpkg.mayaffect with
        packages := (tblRemove (invalidateMayaffect u cpkg.mayaffect).packages
          cpkg.pkg.package).2 } : DpkgPackages).virtualpkgs = u.virtualpkgs from hvirt1]
  · intro v hv
    rw [remove_package_virtual u cpkg p hp hpu,
      rvpFold_lookup _ _ _ _ (by show (_ : DpkgPackages).virtualpkgs.map Prod.fst |>.Nodup
                                 rw [show ({ invalidateMayaffect u cpkg.mayaffect with
                                      packages := _ } : DpkgPackages).virtualpkgs
                                      = u.virtualpkgs from hvirt1]
                                 exact hvnd) hpnd,
      if_neg hv]
    rw [show ({ invalidateMayaffect u cpkg.mayaffect with
        packages := (tblRemove (invalidateMayaffect u cpkg.mayaffect).packages
          cpkg.pkg.package).2 } : DpkgPackages).virtualpkgs = u.virtualpkgs from hvirt1]

/-- Closed witness for `c7_remove_package_semantics`: removing provider
`b` after a successful check of `a` (which depends on virtual `x`) resets
`a`'s memo and deletes the `x` bucket. -/
theorem c7_remove_package_semantics_witness :
    tblLookup (remove_package fixVirtChecked (getCpkg fixVirtChecked "b")).packages "b" = none ∧
    tblLookup (remove_package fixVirtChecked (getCpkg fixVirtChecked "b")).virtualpkgs "x"
      = bucketRemove (tblLookup fixVirtChecked.virtualpkgs "x") "b" ∧
    (tblLookup (remove_package fixVirtChecked (getCpkg fixVirtChecked "b")).packages "a").map
        (fun c => c.installable)
      = (tblLookup fixVirtChecked.packages "a").map (fun _ => Installability.unknown) :=
  ⟨(c7_remove_package_semantics fixVirtChecked "b" (getCpkg fixVirtChecked "b")
      (by decide) (by decide) (by decide) (by decide) (by decide)).2.1,
   (c7_remove_package_semantics fixVirtChecked "b" (getCpkg fixVirtChecked "b")
      (by decide) (by decide) (by decide) (by decide) (by decide)).2.2.1 "x" (by decide),
   (c7_remove_package_semantics fixVirtChecked "b" (getCpkg fixVirtChecked "b")
      (by decide) (by decide) (by decide) (by decide) (by decide)).1 "a" (by decide) (by decide)⟩

theorem tblUpdate_comp {α : Type} (t : List (String × α)) (k : String) (f g : α → α) :
    tblUpdate (tblUpdate t k f) k g = tblUpdate t k (fun x => g (f x)) := by
  induction t with
  | nil => rfl
  | cons e t ih =>
      rw [tblUpdate]
      by_cases he : e.1 = k
      · rw [if_pos he, tblUpdate, if_pos he, tblUpdate, if_pos he]
      · rw [if_neg he, tblUpdate, if_neg he, tblUpdate, if_neg he, ih]

theorem tblUpdate_comm {α : Type} (t : List (String × α)) (a b : String) (f g : α → α)
    (h : ∀ x, g (f x) = f (g x)) :
    tblUpdate (tblUpdate t a f) b g = tblUpdate (tblUpdate t b g) a f := by
  induction t with
  | nil => rfl
  | cons e t ih =>
      by_cases ha : e.1 = a
      · by_cases hb : e.1 = b
        · rw [tblUpdate, if_pos ha, tblUpdate, if_pos hb, tblUpdate, if_pos hb,
            tblUpdate, if_pos ha, h]
        · rw [tblUpdate, if_pos ha, tblUpdate, if_neg hb, tblUpdate, if_neg hb,
            tblUpdate, if_pos ha]
      · by_cases hb : e.1 = b
        · rw [tblUpdate, if_neg ha, tblUpdate, if_pos hb, tblUpdate, if_pos hb,
            tblUpdate, if_neg ha]
        · rw [tblUpdate, if_neg ha, tblUpdate, if_neg hb, tblUpdate, if_neg hb,
            tblUpdate, if_neg ha, ih]

theorem tblUpdate_congr_id {α : Type} (t : List (String × α)) (n : String) (f : α → α)
    (h : ∀ x, f x = x) : tblUpdate t n f = t := by
  induction t with
  | nil => rfl
  | cons e t ih =>
      rw [tblUpdate]
      by_cases he : e.1 = n
      · rw [if_pos he, h]
      · rw [if_neg he, ih]

theorem updatePkg_comp (u : DpkgPackages) (n : String) (f g : CollectedPackage → CollectedPackage) :
    updatePkg (updatePkg u n f) n g = updatePkg u n (fun x => g (f x)) := by
  simp only [updatePkg]
  rw [tblUpdate_comp]

theorem updatePkg_comm (u : DpkgPackages) (a b : String)
    (f g : CollectedPackage → CollectedPackage) (h : ∀ x, g (f x) = f (g x)) :
    updatePkg (updatePkg u a f) b g = updatePkg (updatePkg u b g) a f := by
  simp only [updatePkg]
  rw [tblUpdate_comm _ _ _ _ _ h]

theorem updatePkg_congr_id (u : DpkgPackages) (n : String)
    (f : CollectedPackage → CollectedPackage) (h : ∀ x, f x = x) : updatePkg u n f = u := by
  simp only [updatePkg]
  rw [tblUpdate_congr_id _ _ _ h]

theorem bump_virtual (δ : Int) (s : String) (l : List String) (u : DpkgPackages) :
    (bumpConflicted δ s u l).virtualpkgs = u.virtualpkgs := by
  induction l generalizing u with
  | nil => rfl
  | cons a t ih =>
      rw [bumpConflicted, List.foldl_cons]
      by_cases ha : a = s
      · rw [if_pos ha]
        exact ih u
      · rw [if_neg ha]
        exact ih _

theorem bump_keys (δ : Int) (s : String) (l : List String) (u : DpkgPackages) :
    (bumpConflicted δ s u l).packages.map Prod.fst = u.packages.map Prod.fst := by
  induction l generalizing u with
  | nil => rfl
  | cons a t ih =>
      rw [bumpConflicted, List.foldl_cons]
      by_cases ha : a = s
      · rw [if_pos ha]
        exact ih u
      · rw [if_neg ha]
        rw [show List.foldl _ (updatePkg u a _) t = bumpConflicted δ s (updatePkg u a _) t from rfl]
        rw [ih]
        simp only [updatePkg]
        exact tblUpdate_keys _ _ _

theorem bump_lookup_self (δ : Int) (s : String) (l : List String) (u : DpkgPackages) :
    tblLookup (bumpConflicted δ s u l).packages s = tblLookup u.packages s := by
  induction l generalizing u with
  | nil => rfl
  | cons a t ih =>
      rw [bumpConflicted, List.foldl_cons]
      by_cases ha : a = s
      · rw [if_pos ha]
        exact ih u
      · rw [if_neg ha]
        rw [show List.foldl _ (updatePkg u a _) t = bumpConflicted δ s (updatePkg u a _) t from rfl]
        rw [ih]
        simp only [updatePkg]
        rw [tblLookup_update, if_neg ha]

theorem bump_upd_comm (δ : Int) (s : String) (l : List String) (u : DpkgPackages)
    (b : String) (g : CollectedPackage → CollectedPackage)
    (hg : ∀ x, g { x with conflicted := x.conflicted + δ }
            = { g x with conflicted := (g x).conflicted + δ }) :
    bumpConflicted δ s (updatePkg u b g) l = updatePkg (bumpConflicted δ s u l) b g := by
  induction l generalizing u with
  | nil => rfl
  | cons a t ih =>
      rw [bumpConflicted, List.foldl_cons, bumpConflicted, List.foldl_cons]
      by_cases ha : a = s
      · rw [if_pos ha, if_pos ha]
        exact ih u
      · rw [if_neg ha, if_neg ha]
        rw [show List.foldl _ (updatePkg (updatePkg u b g) a _) t
              = bumpConflicted δ s (updatePkg (updatePkg u b g) a _) t from rfl]
        rw [show List.foldl _ (updatePkg u a _) t
              = bumpConflicted δ s (updatePkg u a _) t from rfl]
        rw [updatePkg_comm u b a g _ (fun x => (hg x).symm), ih]

theorem bump_cancel (δ : Int) (s : String) (l : List String) (u : DpkgPackages) :
    bumpConflicted (-δ) s (bumpConflicted δ s u l) l = u := by
  induction l generalizing u with
  | nil => rfl
  | cons a t ih =>
      rw [bumpConflicted, List.foldl_cons, bumpConflicted, List.foldl_cons]
      by_cases ha : a = s
      · rw [if_pos ha, if_pos ha]
        exact ih u
      · rw [if_neg ha, if_neg ha]
        rw [show List.foldl _ (updatePkg u a _) t = bumpConflicted δ s (updatePkg u a _) t from rfl]
        rw [show List.foldl _ (updatePkg (bumpConflicted δ s (updatePkg u a _) t) a _) t
              = bumpConflicted (-δ) s
                  (updatePkg (bumpConflicted δ s (updatePkg u a _) t) a _) t from rfl]
        rw [← bump_upd_comm δ s t (updatePkg u a _) a _
              (fun x => by simp only []; congr 1; ring)]
        rw [updatePkg_comp]
        rw [updatePkg_congr_id _ _ _ (fun x => by
          show ({ x with conflicted := x.conflicted + δ + -δ } : CollectedPackage) = x
          have : x.conflicted + δ + -δ = x.conflicted := by ring
          rw [this])]
        exact ih u

theorem install_none (vc : String → String → Int) (u : DpkgPackages) (n : String)
    (h : tblLookup u.packages n = none) : install vc u n = u := by
  rw [install, h]

theorem install_some (vc : String → String → Int) (u : DpkgPackages) (n : String)
    (cpkg : CollectedPackage) (h : tblLookup u.packages n = some cpkg) :
    install vc u n =
      updatePkg
        (if cpkg.installed = 0 then
          bumpConflicted 1 n u (get_matching vc u cpkg.pkg.conflicts)
         else u)
        n (fun c => { c with installed := c.installed + 1 }) := by
  rw [install, h]

theorem uninstall_none (vc : String → String → Int) (u : DpkgPackages) (n : String)
    (h : tblLookup u.packages n = none) : uninstall vc u n = u := by
  rw [uninstall, h]

theorem uninstall_some (vc : String → String → Int) (u : DpkgPackages) (n : String)
    (cpkg : CollectedPackage) (h : tblLookup u.packages n = some cpkg) :
    uninstall vc u n =
      (if cpkg.installed - 1 = 0 then
        bumpConflicted (-1) n
          (updatePkg u n (fun c => { c with installed := c.installed - 1 }))
          (get_matching vc u cpkg.pkg.conflicts)
       else updatePkg u n (fun c => { c with installed := c.installed - 1 })) := by
  rw [uninstall, h]

theorem install_virtual (vc : String → String → Int) (u : DpkgPackages) (n : String) :
    (install vc u n).virtualpkgs = u.virtualpkgs := by
  cases hl : tblLookup u.packages n with
  | none => rw [install_none vc u n hl]
  | some cpkg =>
      rw [install_some vc u n cpkg hl]
      by_cases h0 : cpkg.installed = 0
      · rw [if_pos h0]
        show (bumpConflicted 1 n u _).virtualpkgs = _
        exact bump_virtual _ _ _ _
      · rw [if_neg h0]
        rfl

theorem uninstall_virtual (vc : String → String → Int) (u : DpkgPackages) (n : String) :
    (uninstall vc u n).virtualpkgs = u.virtualpkgs := by
  cases hl : tblLookup u.packages n with
  | none => rw [uninstall_none vc u n hl]
  | some cpkg =>
      rw [uninstall_some vc u n cpkg hl]
      by_cases h0 : cpkg.installed - 1 = 0
      · rw [if_pos h0]
        exact bump_virtual _ _ _ _
      · rw [if_neg h0]
        rfl

theorem install_keys (vc : String → String → Int) (u : DpkgPackages) (n : String) :
    (install vc u n).packages.map Prod.fst = u.packages.map Prod.fst := by
  cases hl : tblLookup u.packages n with
  | none => rw [install_none vc u n hl]
  | some cpkg =>
      rw [install_some vc u n cpkg hl]
      simp only [updatePkg]
      rw [tblUpdate_keys]
      by_cases h0 : cpkg.installed = 0
      · rw [if_pos h0]
        exact bump_keys _ _ _ _
      · rw [if_neg h0]

theorem uninstall_keys (vc : String → String → Int) (u : DpkgPackages) (n : String) :
    (uninstall vc u n).packages.map Prod.fst = u.packages.map Prod.fst := by
  cases hl : tblLookup u.packages n with
  | none => rw [uninstall_none vc u n hl]
  | some cpkg =>
      rw [uninstall_some vc u n cpkg hl]
      by_cases h0 : cpkg.installed - 1 = 0
      · rw [if_pos h0, bump_keys]
        simp only [updatePkg]
        rw [tblUpdate_keys]
      · rw [if_neg h0]
        simp only [updatePkg]
        rw [tblUpdate_keys]

theorem get_matching_low_congr (vc : String → String → Int) {u v : DpkgPackages}
    (h : u.virtualpkgs = v.virtualpkgs) (dep : Dependency) :
    get_matching_low vc u dep = get_matching_low vc v dep := by
  simp only [get_matching_low, h]

theorem get_matching_congr (vc : String → String → Int) {u v : DpkgPackages}
    (h : u.virtualpkgs = v.virtualpkgs) (d : List Dependency) :
    get_matching vc u d = get_matching vc v d := by
  have hf : get_matching_low vc u = get_matching_low vc v :=
    funext (fun dep => get_matching_low_congr vc h dep)
  simp only [get_matching, hf]

theorem uninstall_install (vc : String → String → Int) (u : DpkgPackages) (n : String) :
    uninstall vc (install vc u n) n = u := by
  cases hl : tblLookup u.packages n with
  | none =>
      rw [install_none vc u n hl, uninstall_none vc u n hl]
  | some cpkg =>
      have hAl : tblLookup (if cpkg.installed = 0 then
            bumpConflicted 1 n u (get_matching vc u cpkg.pkg.conflicts)
          else u).packages n = some cpkg := by
        by_cases h0 : cpkg.installed = 0
        · rw [if_pos h0, bump_lookup_self, hl]
        · rw [if_neg h0, hl]
      have hBl : tblLookup (install vc u n).packages n
          = some { cpkg with installed := cpkg.installed + 1 } := by
        rw [install_some vc u n cpkg hl]
        simp only [updatePkg]
        rw [tblLookup_update, if_pos rfl, hAl]
        rfl
      have hu1 : updatePkg (install vc u n) n
            (fun c => { c with installed := c.installed - 1 })
          = (if cpkg.installed = 0 then
              bumpConflicted 1 n u (get_matching vc u cpkg.pkg.conflicts)
             else u) := by
        rw [install_some vc u n cpkg hl, updatePkg_comp]
        exact updatePkg_congr_id _ _ _ (fun x => by
          show ({ x with installed := x.installed + 1 - 1 } : CollectedPackage) = x
          have hx : x.installed + 1 - 1 = x.installed := by ring
          rw [hx])
      rw [uninstall_some vc (install vc u n) n _ hBl]
      have hL : get_matching vc (install vc u n)
            ({ cpkg with installed := cpkg.installed + 1 }).pkg.conflicts
          = get_matching vc u cpkg.pkg.conflicts :=
        get_matching_congr vc (install_virtual vc u n) _
      by_cases h0 : cpkg.installed = 0
      · rw [if_pos (by show cpkg.installed + 1 - 1 = 0; omega)]
        rw [hL, hu1, if_pos h0]
        exact bump_cancel 1 n _ u
      · rw [if_neg (by show ¬(cpkg.installed + 1 - 1 = 0); omega)]
        rw [hu1, if_neg h0]

theorem applyInstalls_snoc (vc : String → String → Int) (u : DpkgPackages) (l : List String)
    (x : String) : applyInstalls vc u (l ++ [x]) = install vc (applyInstalls vc u l) x := by
  rw [applyInstalls, List.foldl_append]
  rfl

theorem applyUninstalls_cons (vc : String → String → Int) (u : DpkgPackages) (x : String)
    (l : List String) : applyUninstalls vc u (x :: l) = applyUninstalls vc (uninstall vc u x) l :=
  rfl

theorem unwind_cancel (vc : String → String → Int) (u : DpkgPackages) (l : List String) :
    applyUninstalls vc (applyInstalls vc u l) l.reverse = u := by
  induction l using List.reverseRecOn generalizing u with
  | nil => rfl
  | append_singleton ys y ih =>
      rw [applyInstalls_snoc, List.reverse_append, List.reverse_singleton,
        List.singleton_append, applyUninstalls_cons, uninstall_install]
      exact ih u

theorem applyInstalls_virtual (vc : String → String → Int) (u : DpkgPackages)
    (l : List String) : (applyInstalls vc u l).virtualpkgs = u.virtualpkgs := by
  induction l generalizing u with
  | nil => rfl
  | cons a t ih =>
      rw [applyInstalls, List.foldl_cons]
      rw [show List.foldl (install vc) (install vc u a) t = applyInstalls vc (install vc u a) t
           from rfl, ih, install_virtual]

theorem applyInstalls_keys (vc : String → String → Int) (u : DpkgPackages)
    (l : List String) : (applyInstalls vc u l).packages.map Prod.fst
      = u.packages.map Prod.fst := by
  induction l generalizing u with
  | nil => rfl
  | cons a t ih =>
      rw [applyInstalls, List.foldl_cons]
      rw [show List.foldl (install vc) (install vc u a) t = applyInstalls vc (install vc u a) t
           from rfl, ih, install_keys]

theorem walkFold_eq_uninstalls (vc : String → String → Int) (frames : List IdFrame)
    (u : DpkgPackages) (h : ∀ f ∈ frames, frameSel f) :
    frames.foldl
        (fun u f =>
          match f.cur with
          | none => u
          | some i => uninstall vc u (f.instone.getD i "")) u
      = applyUninstalls vc u (frames.map selOf) := by
  induction frames generalizing u with
  | nil => rfl
  | cons f t ih =>
      rw [List.foldl_cons, List.map_cons, applyUninstalls_cons]
      have hf := h f (List.mem_cons_self f t)
      obtain ⟨i, hi⟩ : ∃ i, f.cur = some i := Option.isSome_iff_exists.mp hf.1
      rw [hi]
      have hsel : selOf f = f.instone.getD i "" := by
        rw [selOf, hi]
        rfl
      rw [hsel]
      exact ih _ (fun g hg => h g (List.mem_cons_of_mem f hg))

theorem budgetUnwind_restores (vc : String → String → Int) (σ₀ : DpkgPackages)
    (ins : List String) (st : SolverState) (h : SolverInv vc σ₀ ins st) :
    budgetUnwind vc st = σ₀ := by
  obtain ⟨hpk, hafter, hbefore, hcur, hhead⟩ := h
  rw [budgetUnwind]
  cases hc : st.fr.current.cur.isSome with
  | true =>
      rw [if_pos rfl]
      rw [walkFold_eq_uninstalls vc _ _ (by
        intro f hf
        rcases List.mem_cons.mp hf with hf | hf
        · subst hf
          exact ⟨hc, hcur hc⟩
        · exact hbefore f hf)]
      have hmap : (st.fr.current :: st.fr.before).map selOf = (sels st.fr).reverse := by
        rw [sels, if_pos hc, List.map_cons, List.reverse_append, List.reverse_singleton,
          List.singleton_append, List.map_reverse, List.reverse_reverse]
      rw [hmap, hpk]
      exact unwind_cancel vc σ₀ (sels st.fr)
  | false =>
      rw [if_neg Bool.false_ne_true]
      rw [walkFold_eq_uninstalls vc _ _ hbefore]
      have hmap : st.fr.before.map selOf = (sels st.fr).reverse := by
        rw [sels, if_neg (by rw [hc]; exact Bool.false_ne_true), List.append_nil,
          List.map_reverse, List.reverse_reverse]
      rw [hmap, hpk]
      exact unwind_cancel vc σ₀ (sels st.fr)

theorem takeThroughId_sub (cid : Nat) :
    ∀ (l : List IdFrame) (f : IdFrame), f ∈ takeThroughId cid l → f ∈ l := by
  intro l
  induction l with
  | nil => intro f hf; exact absurd hf (List.not_mem_nil f)
  | cons g t ih =>
      intro f hf
      rw [takeThroughId] at hf
      by_cases hg : g.id = cid
      · rw [if_pos hg] at hf
        rcases List.mem_singleton.mp hf with h
        exact h ▸ List.mem_cons_self g t
      · rw [if_neg hg] at hf
        rcases List.mem_cons.mp hf with h | h
        · exact h ▸ List.mem_cons_self g t
        · exact List.mem_cons_of_mem g (ih f h)

theorem trimAfter_sub (cutoff : Option Nat) (curId : Nat) (l : List IdFrame) (f : IdFrame)
    (hf : f ∈ trimAfter cutoff curId l) : f ∈ l := by
  rw [trimAfter.eq_def] at hf
  cases cutoff with
  | none => exact hf
  | some cid =>
      have hf2 : f ∈ if cid = curId then ([] : List IdFrame) else takeThroughId cid l := hf
      by_cases hc : cid = curId
      · rw [if_pos hc] at hf2
        exact absurd hf2 (List.not_mem_nil f)
      · rw [if_neg hc] at hf2
        exact takeThroughId_sub cid l f hf2

theorem insertAfterId_mem (cid : Nat) (nf : IdFrame) :
    ∀ (l : List IdFrame) (f : IdFrame), f ∈ insertAfterId cid nf l → f ∈ l ∨ f = nf := by
  intro l
  induction l with
  | nil =>
      intro f hf
      rw [insertAfterId] at hf
      exact Or.inr (List.mem_singleton.mp hf)
  | cons g t ih =>
      intro f hf
      rw [insertAfterId] at hf
      by_cases hg : g.id = cid
      · rw [if_pos hg] at hf
        rcases List.mem_cons.mp hf with h | h
        · exact Or.inl (h ▸ List.mem_cons_self g t)
        · rcases List.mem_cons.mp h with h2 | h2
          · exact Or.inr h2
          · exact Or.inl (List.mem_cons_of_mem g h2)
      · rw [if_neg hg] at hf
        rcases List.mem_cons.mp hf with h | h
        · exact Or.inl (h ▸ List.mem_cons_self g t)
        · rcases ih f h with h2 | h2
          · exact Or.inl (List.mem_cons_of_mem g h2)
          · exact Or.inr h2

theorem mkFrame_cur (id : Nat) (inst : List String) : (mkFrame id inst).cur = none := rfl

theorem advanceFrom_spec (vc : String → String → Int) (u : DpkgPackages) :
    ∀ (l : List String) (i j : Nat), advanceFrom vc u l i = some j → i ≤ j ∧ j - i < l.length := by
  intro l
  induction l with
  | nil =>
      intro i j h
      rw [advanceFrom] at h
      exact absurd h (by intro hh; exact Option.noConfusion hh)
  | cons n rest ih =>
      intro i j h
      rw [advanceFrom] at h
      by_cases hc : caninstall vc u n = true
      · rw [if_pos hc] at h
        cases h
        exact ⟨Nat.le_refl i, by simp⟩
      · rw [if_neg hc] at h
        obtain ⟨h1, h2⟩ := ih (i + 1) j h
        refine ⟨by omega, ?_⟩
        rw [List.length_cons]
        omega

theorem advCur_lt (vc : String → String → Int) (u : DpkgPackages) (c : IdFrame) (j : Nat)
    (h : advCur vc u c = some j) : j < c.instone.length := by
  rw [advCur] at h
  cases hc : c.cur with
  | none =>
      rw [hc] at h
      exact absurd h (by intro hh; exact Option.noConfusion hh)
  | some i =>
      rw [hc] at h
      obtain ⟨h1, h2⟩ := advanceFrom_spec vc u (c.instone.drop i) i j h
      rw [List.length_drop] at h2
      omega

theorem toList_refocus (rest : List IdFrame) (p c : IdFrame) (a : List IdFrame) :
    Frontier.toList ⟨rest, p, c :: a⟩ = Frontier.toList ⟨p :: rest, c, a⟩ := by
  rw [Frontier.toList, Frontier.toList]
  simp

theorem headD_instone_congr (b : List IdFrame) (c c' : IdFrame) (a a' : List IdFrame)
    (h : c'.instone = c.instone) :
    ((Frontier.toList ⟨b, c', a'⟩).headD (mkFrame 0 [])).instone
      = ((Frontier.toList ⟨b, c, a⟩).headD (mkFrame 0 [])).instone := by
  rw [Frontier.toList, Frontier.toList]
  cases hb : b.reverse with
  | nil => simpa using h
  | cons x t => simp

theorem expandClauseGo_spec (ci : Nat) (exp : Bool) (st : ExpandSt) (td : List String) :
    (expandClauseGo ci exp st td).fr.before = st.fr.before ∧
    (expandClauseGo ci exp st td).fr.current.cur = st.fr.current.cur ∧
    (expandClauseGo ci exp st td).fr.current.instone = st.fr.current.instone ∧
    ∀ f ∈ (expandClauseGo ci exp st td).fr.after, f ∈ st.fr.after ∨ f.cur = none := by
  cases td with
  | nil => exact ⟨rfl, rfl, rfl, fun f hf => Or.inl hf⟩
  | cons x rest =>
      rw [expandClauseGo]
      by_cases hre : rest.isEmpty = true
      · rw [if_pos hre]
        by_cases hlen : st.fr.current.instone.length = 1
        · rw [if_pos hlen]
          by_cases hexp : exp = true
          · rw [if_pos hexp]
            exact ⟨rfl, rfl, rfl, fun f hf => Or.inl hf⟩
          · rw [if_neg hexp]
            refine ⟨rfl, rfl, rfl, fun f hf => ?_⟩
            rcases List.mem_cons.mp hf with h | h
            · exact Or.inr (by rw [h]; rfl)
            · exact Or.inl h
        · rw [if_neg hlen]
          refine ⟨rfl, rfl, rfl, fun f hf => ?_⟩
          cases hco : st.fr.current.cutoff with
          | none =>
              rw [hco] at hf
              rcases List.mem_append.mp hf with h | h
              · exact Or.inl h
              · exact Or.inr (by rw [List.mem_singleton.mp h]; rfl)
          | some cid =>
              rw [hco] at hf
              have hf2 : f ∈ if cid = st.fr.current.id then
                  mkFrame st.nextId (x :: rest) :: st.fr.after
                else insertAfterId cid (mkFrame st.nextId (x :: rest)) st.fr.after := hf
              by_cases hcid : cid = st.fr.current.id
              · rw [if_pos hcid] at hf2
                rcases List.mem_cons.mp hf2 with h | h
                · exact Or.inr (by rw [h]; rfl)
                · exact Or.inl h
              · rw [if_neg hcid] at hf2
                rcases insertAfterId_mem cid (mkFrame st.nextId (x :: rest)) st.fr.after f hf2
                  with h | h
                · exact Or.inl h
                · exact Or.inr (by rw [h]; rfl)
      · rw [if_neg hre]
        refine ⟨rfl, rfl, rfl, fun f hf => ?_⟩
        rcases List.mem_append.mp hf with h | h
        · exact Or.inl h
        · exact Or.inr (by rw [List.mem_singleton.mp h]; rfl)

theorem expandFold_spec (vc : String → String → Int) (u : DpkgPackages) (ci : Nat)
    (exp : Bool) (cls : List (List Dependency)) :
    ∀ (st : ExpandSt),
    (cls.foldl (expandClause vc u ci exp) st).fr.before = st.fr.before ∧
    (cls.foldl (expandClause vc u ci exp) st).fr.current.cur = st.fr.current.cur ∧
    (cls.foldl (expandClause vc u ci exp) st).fr.current.instone = st.fr.current.instone ∧
    ∀ f ∈ (cls.foldl (expandClause vc u ci exp) st).fr.after, f ∈ st.fr.after ∨ f.cur = none := by
  induction cls with
  | nil => exact fun st => ⟨rfl, rfl, rfl, fun f hf => Or.inl hf⟩
  | cons c t ih =>
      intro st
      rw [List.foldl_cons]
      obtain ⟨h1, h2, h3, h4⟩ := ih (expandClause vc u ci exp st c)
      obtain ⟨g1, g2, g3, g4⟩ := expandClauseGo_spec ci exp st (get_matching vc u c)
      refine ⟨h1.trans g1, h2.trans g2, h3.trans g3, fun f hf => ?_⟩
      rcases h4 f hf with h | h
      · exact g4 f h
      · exact Or.inr h

theorem expandDeps_spec (vc : String → String → Int) (u : DpkgPackages) (p : DpkgPackage)
    (ci : Nat) (fr : Frontier) (nid : Nat) :
    (expandDeps vc u p ci fr nid).fr.before = fr.before ∧
    (expandDeps vc u p ci fr nid).fr.current.cur = fr.current.cur ∧
    (expandDeps vc u p ci fr nid).fr.current.instone = fr.current.instone ∧
    ∀ f ∈ (expandDeps vc u p ci fr nid).fr.after, f ∈ fr.after ∨ f.cur = none :=
  expandFold_spec vc u ci fr.current.expanded (activeClauses p) { fr := fr, nextId := nid, bother := true }

theorem moveNext_spec (vc : String → String → Int) (σ₀ : DpkgPackages) (ins : List String)
    (u2 : DpkgPackages) (bef : List IdFrame) (cur2 : IdFrame) (aft2 : List IdFrame) (nid : Nat)
    (hpk : u2 = applyInstalls vc σ₀ (bef.reverse.map selOf ++ [selOf cur2]))
    (hafter : ∀ f ∈ aft2, f.cur = none)
    (hbefore : ∀ f ∈ bef, frameSel f)
    (hsel : frameSel cur2)
    (hhead : ((Frontier.toList ⟨bef, cur2, aft2⟩).headD (mkFrame 0 [])).instone = ins) :
    StepOut vc σ₀ ins (moveNext u2 ⟨bef, cur2, aft2⟩ nid) := by
  cases aft2 with
  | nil =>
      show StepOut vc σ₀ ins (.fin u2 (Frontier.toList ⟨bef, cur2, []⟩))
      refine ⟨?_, ?_, hhead, ?_⟩
      · rw [show Frontier.toList ⟨bef, cur2, []⟩ = bef.reverse ++ [cur2] from rfl,
          List.map_append, List.map_singleton]
        exact hpk
      · intro f hf
        rw [show Frontier.toList ⟨bef, cur2, []⟩ = bef.reverse ++ [cur2] from rfl] at hf
        rcases List.mem_append.mp hf with h | h
        · exact hbefore f (List.mem_reverse.mp h)
        · rw [List.mem_singleton.mp h]
          exact hsel
      · rw [show Frontier.toList ⟨bef, cur2, []⟩ = bef.reverse ++ [cur2] from rfl]
        simp
  | cons n rest =>
      show StepOut vc σ₀ ins
        (.cont { pkgs := u2, fr := ⟨cur2 :: bef, n, rest⟩, nextId := nid })
      have hn : n.cur = none := hafter n (List.mem_cons_self n rest)
      have hsels : sels ⟨cur2 :: bef, n, rest⟩ = bef.reverse.map selOf ++ [selOf cur2] := by
        simp [sels, hn]
      refine ⟨?_, ?_, ?_, ?_, ?_⟩
      · show u2 = applyInstalls vc σ₀ (sels ⟨cur2 :: bef, n, rest⟩)
        rw [hsels]
        exact hpk
      · intro f hf
        exact hafter f (List.mem_cons_of_mem n hf)
      · intro f hf
        rcases List.mem_cons.mp hf with h | h
        · rw [h]; exact hsel
        · exact hbefore f h
      · show n.cur.isSome = true → n.cur.getD 0 < n.instone.length
        intro hsome
        rw [hn] at hsome
        exact absurd hsome (by simp)
      · show ((Frontier.toList ⟨cur2 :: bef, n, rest⟩).headD (mkFrame 0 [])).instone = ins
        rw [← toList_refocus]
        exact hhead

theorem stepGo_spec (vc : String → String → Int) (σ₀ : DpkgPackages) (ins : List String)
    (u : DpkgPackages) (fr : Frontier) (nid : Nat)
    (hpre : PreGo vc σ₀ ins u fr) :
    StepOut vc σ₀ ins (stepGo vc u fr nid) := by
  obtain ⟨bef, cur, aft⟩ := fr
  obtain ⟨hpk, hafter, hbefore, hhead⟩ := hpre
  rw [stepGo]
  cases ha : advCur vc u (Frontier.current ⟨bef, cur, aft⟩) with
  | none =>
      show StepOut vc σ₀ ins (backtrackRes u ⟨bef, { cur with cur := none }, aft⟩ nid)
      cases bef with
      | nil =>
          show StepOut vc σ₀ ins
            (.brk { pkgs := u, fr := ⟨[], { cur with cur := none }, aft⟩, nextId := nid })
          show u = σ₀
          rw [hpk]
          rfl
      | cons p rest =>
          show StepOut vc σ₀ ins
            (.cont { pkgs := u, fr := ⟨rest, p, { cur with cur := none } :: aft⟩
                     nextId := nid })
          have hp : frameSel p := hbefore p (List.mem_cons_self p rest)
          have hsels : sels ⟨rest, p, { cur with cur := none } :: aft⟩
              = (p :: rest).reverse.map selOf := by
            simp [sels, hp.1]
          refine ⟨?_, ?_, ?_, ?_, ?_⟩
          · show u = applyInstalls vc σ₀ (sels ⟨rest, p, { cur with cur := none } :: aft⟩)
            rw [hsels]
            exact hpk
          · intro f hf
            rcases List.mem_cons.mp hf with h | h
            · rw [h]
            · exact hafter f h
          · intro f hf
            exact hbefore f (List.mem_cons_of_mem p hf)
          · show p.cur.isSome = true → p.cur.getD 0 < p.instone.length
            intro _
            exact hp.2
          · show ((Frontier.toList ⟨rest, p, { cur with cur := none } :: aft⟩).headD
                (mkFrame 0 [])).instone = ins
            rw [toList_refocus]
            exact (headD_instone_congr (p :: rest) cur { cur with cur := none } aft aft
              rfl).trans hhead
  | some i =>
      show StepOut vc σ₀ ins (installPath vc u ⟨bef, { cur with cur := some i }, aft⟩ nid i)
      have hi : i < cur.instone.length := advCur_lt vc u cur i ha
      rw [installPath]
      have hselof : selOf { cur with cur := some i } = cur.instone.getD i "" := by
        rw [selOf]
        rfl
      have hu2 : install vc u (cur.instone.getD i "")
          = applyInstalls vc σ₀ (bef.reverse.map selOf ++ [selOf { cur with cur := some i }]) := by
        rw [hselof, applyInstalls_snoc, ← hpk]
      by_cases hone :
          (getCpkg (install vc u (cur.instone.getD i ""))
            (cur.instone.getD i "")).installed = 1
      · rw [if_pos hone]
        obtain ⟨e1, e2, e3, e4⟩ := expandDeps_spec vc
          (install vc u (cur.instone.getD i ""))
          (getCpkg (install vc u (cur.instone.getD i ""))
            (cur.instone.getD i "")).pkg
          i ⟨bef, { cur with cur := some i }, aft⟩ nid
        rcases hef : (expandDeps vc (install vc u (cur.instone.getD i ""))
            (getCpkg (install vc u (cur.instone.getD i ""))
              (cur.instone.getD i "")).pkg
            i ⟨bef, { cur with cur := some i }, aft⟩ nid).fr with ⟨ebef, ecur, eaft⟩
        rw [hef] at e1 e2 e3 e4
        have hebef : ebef = bef := e1
        have hecur : ecur.cur = some i := e2
        have heinst : ecur.instone = cur.instone := e3
        rw [hebef] at hef
        have heaft : ∀ f ∈ eaft, f.cur = none := by
          intro f hf
          rcases e4 f hf with h | h
          · exact hafter f h
          · exact h
        have heselof : selOf ecur = selOf { cur with cur := some i } := by
          rw [selOf, selOf, hecur, heinst]
        have hesel : frameSel ecur := by
          refine ⟨by rw [hecur]; rfl, ?_⟩
          rw [hecur, heinst]
          exact hi
        have hehead : ((Frontier.toList ⟨bef, ecur, eaft⟩).headD (mkFrame 0 [])).instone
            = ins := by
          rw [headD_instone_congr bef cur ecur aft eaft heinst]
          exact hhead
        by_cases hb : (expandDeps vc (install vc u (cur.instone.getD i ""))
            (getCpkg (install vc u (cur.instone.getD i ""))
              (cur.instone.getD i "")).pkg
            i ⟨bef, { cur with cur := some i }, aft⟩ nid).bother = true
        · rw [if_pos hb, hef]
          refine moveNext_spec vc σ₀ ins _ bef ecur eaft _ ?_ heaft hbefore hesel hehead
          rw [heselof]
          exact hu2
        · rw [if_neg hb, hef]
          show SolverInv vc σ₀ ins
            { pkgs := install vc u (cur.instone.getD i ""), fr := ⟨bef, ecur, eaft⟩
              nextId := (expandDeps vc (install vc u (cur.instone.getD i ""))
                (getCpkg (install vc u (cur.instone.getD i ""))
                  (cur.instone.getD i "")).pkg
                i ⟨bef, { cur with cur := some i }, aft⟩ nid).nextId }
          have hsels : sels ⟨bef, ecur, eaft⟩ = bef.reverse.map selOf ++ [selOf ecur] := by
            simp [sels, hecur]
          refine ⟨?_, heaft, hbefore, ?_, hehead⟩
          · show install vc u (cur.instone.getD i "")
              = applyInstalls vc σ₀ (sels ⟨bef, ecur, eaft⟩)
            rw [hsels, heselof]
            exact hu2
          · show ecur.cur.isSome = true → ecur.cur.getD 0 < ecur.instone.length
            intro _
            rw [hecur, heinst]
            exact hi
      · rw [if_neg hone]
        refine moveNext_spec vc σ₀ ins _ bef { cur with cur := some i } aft _ hu2 hafter
          hbefore ⟨rfl, hi⟩ ?_
        exact (headD_instone_congr bef cur { cur with cur := some i } aft aft rfl).trans hhead

theorem step_spec (vc : String → String → Int) (σ₀ : DpkgPackages) (ins : List String)
    (st : SolverState) (h : SolverInv vc σ₀ ins st) :
    StepOut vc σ₀ ins (step vc st) := by
  obtain ⟨pkgs, ⟨bef, ⟨cid, ccur, cinst, ccut, cexp⟩, aft⟩, nid⟩ := st
  obtain ⟨hpk, hafter, hbefore, hbound, hhead⟩ := h
  cases ccur with
  | none =>
      show StepOut vc σ₀ ins
        (stepGo vc pkgs
          ⟨bef,
            ⟨cid,
              match cinst.findIdx? (fun n => (getCpkg pkgs n).installed ≠ 0) with
              | some j => some j
              | none => if cinst.isEmpty then none else some 0,
              cinst,
              some (lastIdOf ⟨bef, ⟨cid, none, cinst, ccut, cexp⟩, aft⟩), cexp⟩,
            aft⟩ nid)
      refine stepGo_spec vc σ₀ ins pkgs _ nid ⟨?_, hafter, hbefore, ?_⟩
      · have hsels : sels ⟨bef, ⟨cid, none, cinst, ccut, cexp⟩, aft⟩
            = bef.reverse.map selOf := by
          simp [sels]
        rw [hsels] at hpk
        exact hpk
      · refine (headD_instone_congr bef ⟨cid, none, cinst, ccut, cexp⟩
          ⟨cid,
            match cinst.findIdx? (fun n => (getCpkg pkgs n).installed ≠ 0) with
            | some j => some j
            | none => if cinst.isEmpty then none else some 0,
            cinst,
            some (lastIdOf ⟨bef, ⟨cid, none, cinst, ccut, cexp⟩, aft⟩), cexp⟩
          aft aft rfl).trans hhead
  | some i =>
      show StepOut vc σ₀ ins
        (stepGo vc (uninstall vc pkgs (cinst.getD i ""))
          ⟨bef,
            ⟨cid,
              if (getCpkg (uninstall vc pkgs (cinst.getD i "")) (cinst.getD i "")).installed
                  > 0 then none
              else if i + 1 < cinst.length then some (i + 1) else none,
              cinst, ccut, cexp⟩,
            trimAfter ccut cid aft⟩ nid)
      refine stepGo_spec vc σ₀ ins _ _ nid ⟨?_, ?_, hbefore, ?_⟩
      · have hsels : sels ⟨bef, ⟨cid, some i, cinst, ccut, cexp⟩, aft⟩
            = bef.reverse.map selOf ++ [cinst.getD i ""] := by
          simp [sels, selOf]
        rw [hsels] at hpk
        have hpk2 : pkgs
            = applyInstalls vc σ₀ (bef.reverse.map selOf ++ [cinst.getD i ""]) := hpk
        show uninstall vc pkgs (cinst.getD i "")
          = applyInstalls vc σ₀ (bef.reverse.map selOf)
        rw [hpk2, applyInstalls_snoc, uninstall_install]
      · intro f hf
        exact hafter f (trimAfter_sub ccut cid aft f hf)
      · refine (headD_instone_congr bef ⟨cid, some i, cinst, ccut, cexp⟩
          ⟨cid,
            if (getCpkg (uninstall vc pkgs (cinst.getD i "")) (cinst.getD i "")).installed
                > 0 then none
            else if i + 1 < cinst.length then some (i + 1) else none,
            cinst, ccut, cexp⟩
          aft (trimAfter ccut cid aft) rfl).trans hhead

theorem mainLoop_spec (vc : String → String → Int) (σ₀ : DpkgPackages) (ins : List String)
    (c : Nat) : ∀ st : SolverState, SolverInv vc σ₀ ins st →
    LoopOut vc σ₀ ins (mainLoop vc c st) := by
  induction c using Nat.strongRecOn with
  | ind c ih =>
      intro st h
      match c with
      | 0 => exact h
      | 1 => exact h
      | cc + 2 =>
          have hstep := step_spec vc σ₀ ins st h
          rw [mainLoop]
          cases hs : step vc st with
          | brk st2 =>
              rw [hs] at hstep
              exact hstep
          | fin pkgs frames =>
              rw [hs] at hstep
              show LoopOut vc σ₀ ins
                (if cc = 0 then .budgetNull pkgs frames else .success pkgs frames)
              by_cases h0 : cc = 0
              · rw [if_pos h0]
                trivial
              · rw [if_neg h0]
                exact hstep
          | cont st2 =>
              rw [hs] at hstep
              exact ih (cc + 1) (by omega) st2 hstep

theorem mainLoopIters_le (vc : String → String → Int) (c : Nat) :
    ∀ st : SolverState, mainLoopIters vc c st ≤ c - 1 := by
  induction c using Nat.strongRecOn with
  | ind c ih =>
      intro st
      match c with
      | 0 => exact Nat.le_refl 0
      | 1 => exact Nat.le_refl 0
      | cc + 2 =>
          rw [mainLoopIters]
          cases hs : step vc st with
          | brk st2 =>
              show (1 : Nat) ≤ cc + 2 - 1
              omega
          | fin pkgs frames =>
              show (1 : Nat) ≤ cc + 2 - 1
              omega
          | cont st2 =>
              have := ih (cc + 1) (by omega) st2
              show 1 + mainLoopIters vc (cc + 1) st2 ≤ cc + 2 - 1
              omega

theorem initSolver_inv (vc : String → String → Int) (pkgs : DpkgPackages)
    (ins : List String) : SolverInv vc pkgs ins (initSolver pkgs ins) := by
  refine ⟨rfl, ?_, ?_, ?_, rfl⟩
  · intro f hf
    exact absurd hf (List.not_mem_nil f)
  · intro f hf
    exact absurd hf (List.not_mem_nil f)
  · intro hsome
    exact absurd hsome (by simp [initSolver, mkFrame])

theorem getCpkg_updatePkg_proj {β : Type} (proj : CollectedPackage → β)
    (u : DpkgPackages) (m n : String) (f : CollectedPackage → CollectedPackage)
    (hf : ∀ c, proj (f c) = proj c) :
    proj (getCpkg (updatePkg u m f) n) = proj (getCpkg u n) := by
  show proj ((tblLookup (tblUpdate u.packages m f) n).getD noCollected)
    = proj ((tblLookup u.packages n).getD noCollected)
  rw [tblLookup_update]
  by_cases h : m = n
  · rw [if_pos h]
    cases tblLookup u.packages n with
    | none => rfl
    | some c => exact hf c
  · rw [if_neg h]

theorem bump_updatePkg_memo (δ : Int) (s : String) (l : List String) (u : DpkgPackages)
    (m : String) (F1 : Installability → Installability) (F2 : List String → List String) :
    bumpConflicted δ s (updatePkg u m (memoUpd F1 F2)) l
      = updatePkg (bumpConflicted δ s u l) m (memoUpd F1 F2) := by
  induction l generalizing u with
  | nil => rfl
  | cons conf t ih =>
      simp only [bumpConflicted, List.foldl_cons]
      by_cases hc : conf = s
      · rw [if_pos hc, if_pos hc]
        exact ih u
      · rw [if_neg hc, if_neg hc]
        rw [updatePkg_comm u m conf (memoUpd F1 F2)
          (fun c => { c with conflicted := c.conflicted + δ }) (fun c => rfl)]
        exact ih (updatePkg u conf (fun c => { c with conflicted := c.conflicted + δ }))

theorem install_updatePkg_memo (vc : String → String → Int) (u : DpkgPackages)
    (m n : String) (F1 : Installability → Installability) (F2 : List String → List String) :
    install vc (updatePkg u m (memoUpd F1 F2)) n
      = updatePkg (install vc u n) m (memoUpd F1 F2) := by
  have hlk : tblLookup (updatePkg u m (memoUpd F1 F2)).packages n
      = if m = n then (tblLookup u.packages n).map (memoUpd F1 F2)
        else tblLookup u.packages n := tblLookup_update u.packages m (memoUpd F1 F2) n
  have hvirt : (updatePkg u m (memoUpd F1 F2)).virtualpkgs = u.virtualpkgs := rfl
  cases hl : tblLookup u.packages n with
  | none =>
      rw [install_none vc u n hl]
      rw [install_none vc (updatePkg u m (memoUpd F1 F2)) n]
      rw [hlk, hl]
      by_cases h : m = n
      · rw [if_pos h]
        rfl
      · rw [if_neg h]
  | some cpkg =>
      rw [install_some vc u n cpkg hl]
      by_cases hm : m = n
      · rw [install_some vc (updatePkg u m (memoUpd F1 F2)) n (memoUpd F1 F2 cpkg)
          (by rw [hlk, hl, if_pos hm]; rfl)]
        rw [show (memoUpd F1 F2 cpkg).installed = cpkg.installed from rfl,
          show (memoUpd F1 F2 cpkg).pkg = cpkg.pkg from rfl,
          get_matching_congr vc hvirt cpkg.pkg.conflicts]
        by_cases hz : cpkg.installed = 0
        · rw [if_pos hz, if_pos hz, bump_updatePkg_memo]
          rw [updatePkg_comm (bumpConflicted 1 n u (get_matching vc u cpkg.pkg.conflicts))
            m n (memoUpd F1 F2) (fun c => { c with installed := c.installed + 1 })
            (fun c => rfl)]
        · rw [if_neg hz, if_neg hz]
          rw [updatePkg_comm u m n (memoUpd F1 F2)
            (fun c => { c with installed := c.installed + 1 }) (fun c => rfl)]
      · rw [install_some vc (updatePkg u m (memoUpd F1 F2)) n cpkg
          (by rw [hlk, hl, if_neg hm])]
        rw [get_matching_congr vc hvirt cpkg.pkg.conflicts]
        by_cases hz : cpkg.installed = 0
        · rw [if_pos hz, if_pos hz, bump_updatePkg_memo]
          rw [updatePkg_comm (bumpConflicted 1 n u (get_matching vc u cpkg.pkg.conflicts))
            m n (memoUpd F1 F2) (fun c => { c with installed := c.installed + 1 })
            (fun c => rfl)]
        · rw [if_neg hz, if_neg hz]
          rw [updatePkg_comm u m n (memoUpd F1 F2)
            (fun c => { c with installed := c.installed + 1 }) (fun c => rfl)]

theorem uninstall_updatePkg_memo (vc : String → String → Int) (u : DpkgPackages)
    (m n : String) (F1 : Installability → Installability) (F2 : List String → List String) :
    uninstall vc (updatePkg u m (memoUpd F1 F2)) n
      = updatePkg (uninstall vc u n) m (memoUpd F1 F2) := by
  have hlk : tblLookup (updatePkg u m (memoUpd F1 F2)).packages n
      = if m = n then (tblLookup u.packages n).map (memoUpd F1 F2)
        else tblLookup u.packages n := tblLookup_update u.packages m (memoUpd F1 F2) n
  have hvirt : (updatePkg u m (memoUpd F1 F2)).virtualpkgs = u.virtualpkgs := rfl
  cases hl : tblLookup u.packages n with
  | none =>
      rw [uninstall_none vc u n hl]
      rw [uninstall_none vc (updatePkg u m (memoUpd F1 F2)) n]
      rw [hlk, hl]
      by_cases h : m = n
      · rw [if_pos h]
        rfl
      · rw [if_neg h]
  | some cpkg =>
      rw [uninstall_some vc u n cpkg hl]
      have hcomm := updatePkg_comm u m n (memoUpd F1 F2)
        (fun c => { c with installed := c.installed - 1 }) (fun c => rfl)
      by_cases hm : m = n
      · rw [uninstall_some vc (updatePkg u m (memoUpd F1 F2)) n (memoUpd F1 F2 cpkg)
          (by rw [hlk, hl, if_pos hm]; rfl)]
        rw [show (memoUpd F1 F2 cpkg).installed = cpkg.installed from rfl,
          show (memoUpd F1 F2 cpkg).pkg = cpkg.pkg from rfl,
          get_matching_congr vc hvirt cpkg.pkg.conflicts]
        by_cases hz : cpkg.installed - 1 = 0
        · rw [if_pos hz, if_pos hz, hcomm, bump_updatePkg_memo]
        · rw [if_neg hz, if_neg hz, hcomm]
      · rw [uninstall_some vc (updatePkg u m (memoUpd F1 F2)) n cpkg
          (by rw [hlk, hl, if_neg hm])]
        rw [get_matching_congr vc hvirt cpkg.pkg.conflicts]
        by_cases hz : cpkg.installed - 1 = 0
        · rw [if_pos hz, if_pos hz, hcomm, bump_updatePkg_memo]
        · rw [if_neg hz, if_neg hz, hcomm]

theorem swpStep_updatePkg (vc : String → String → Int) (chosen : String)
    (F1 : Installability → Installability) (F2 : List String → List String)
    (hF2 : ∀ l, F2 (chosen :: l) = chosen :: F2 l) (u : DpkgPackages) (m : String)
    (f : IdFrame) :
    swpStep vc chosen (updatePkg u m (memoUpd F1 F2)) f
      = updatePkg (swpStep vc chosen u f) m (memoUpd F1 F2) := by
  rw [swpStep, swpStep]
  have hcond : (getCpkg (updatePkg u m (memoUpd F1 F2)) (selOf f)).installed
      = (getCpkg u (selOf f)).installed :=
    getCpkg_updatePkg_proj (fun c => c.installed) u m (selOf f) (memoUpd F1 F2)
      (fun c => rfl)
  by_cases h1 : (getCpkg u (selOf f)).installed = 1
  · rw [if_pos (hcond.trans h1), if_pos h1]
    rw [updatePkg_comm u m (selOf f) (memoUpd F1 F2)
      (fun c => { c with mayaffect := chosen :: c.mayaffect })
      (fun c => by
        cases c
        simp [memoUpd, hF2])]
    rw [uninstall_updatePkg_memo]
  · rw [if_neg (fun hc => h1 (hcond.symm.trans hc)), if_neg h1]
    rw [uninstall_updatePkg_memo]

theorem successWalkP_updatePkg (vc : String → String → Int) (chosen : String)
    (F1 : Installability → Installability) (F2 : List String → List String)
    (hF2 : ∀ l, F2 (chosen :: l) = chosen :: F2 l) (frames : List IdFrame) :
    ∀ (u : DpkgPackages) (m : String),
    successWalkP vc chosen (updatePkg u m (memoUpd F1 F2)) frames
      = updatePkg (successWalkP vc chosen u frames) m (memoUpd F1 F2) := by
  induction frames with
  | nil => intro u m; rfl
  | cons f t ih =>
      intro u m
      show successWalkP vc chosen (swpStep vc chosen (updatePkg u m (memoUpd F1 F2)) f) t
        = updatePkg (successWalkP vc chosen (swpStep vc chosen u f) t) m (memoUpd F1 F2)
      rw [swpStep_updatePkg vc chosen F1 F2 hF2 u m f]
      exact ih (swpStep vc chosen u f) m

theorem successWalkP_decompose (vc : String → String → Int) (chosen : String)
    (frames : List IdFrame) :
    ∀ u : DpkgPackages, ∃ ms : List String,
    successWalkP vc chosen u frames
      = ms.foldl
          (fun v s => updatePkg v s (fun c => { c with mayaffect := chosen :: c.mayaffect }))
          (applyUninstalls vc u (frames.map selOf)) := by
  induction frames with
  | nil => intro u; exact ⟨[], rfl⟩
  | cons f t ih =>
      intro u
      have hgm : (fun c => { c with mayaffect := chosen :: c.mayaffect })
          = memoUpd id (fun l => chosen :: l) := funext (fun c => rfl)
      have htail : applyUninstalls vc u ((f :: t).map selOf)
          = applyUninstalls vc (uninstall vc u (selOf f)) (t.map selOf) := rfl
      by_cases h1 : (getCpkg u (selOf f)).installed = 1
      · have hstep : swpStep vc chosen u f
            = updatePkg (uninstall vc u (selOf f)) (selOf f)
                (fun c => { c with mayaffect := chosen :: c.mayaffect }) := by
          rw [swpStep, if_pos h1, hgm, uninstall_updatePkg_memo]
        obtain ⟨ms, hms⟩ := ih (uninstall vc u (selOf f))
        refine ⟨ms ++ [selOf f], ?_⟩
        show successWalkP vc chosen (swpStep vc chosen u f) t = _
        rw [hstep, hgm, successWalkP_updatePkg vc chosen id (fun l => chosen :: l)
          (fun l => rfl) t (uninstall vc u (selOf f)) (selOf f)]
        rw [← hgm, hms, htail, List.foldl_append]
        rfl
      · have hstep : swpStep vc chosen u f = uninstall vc u (selOf f) := by
          rw [swpStep, if_neg h1]
        obtain ⟨ms, hms⟩ := ih (uninstall vc u (selOf f))
        refine ⟨ms, ?_⟩
        show successWalkP vc chosen (swpStep vc chosen u f) t = _
        rw [hstep, hms, htail]

theorem memoFold_proj {β : Type} (proj : CollectedPackage → β) (chosen : String)
    (hpres : ∀ c, proj ({ c with mayaffect := chosen :: c.mayaffect } : CollectedPackage)
      = proj c) (ms : List String) :
    ∀ (v : DpkgPackages) (n : String),
    proj (getCpkg (ms.foldl
        (fun v s => updatePkg v s (fun c => { c with mayaffect := chosen :: c.mayaffect })) v) n)
      = proj (getCpkg v n) := by
  induction ms with
  | nil => intro v n; rfl
  | cons s t ih =>
      intro v n
      rw [List.foldl_cons]
      exact (ih _ n).trans (getCpkg_updatePkg_proj proj v s n _ hpres)

theorem getCpkg_updatePkg_mayaffect (chosen : String) (v : DpkgPackages) (s n : String) :
    ∃ j : Nat, (getCpkg (updatePkg v s
        (fun c => { c with mayaffect := chosen :: c.mayaffect })) n).mayaffect
      = List.replicate j chosen ++ (getCpkg v n).mayaffect := by
  have hlk : tblLookup (updatePkg v s
        (fun c => { c with mayaffect := chosen :: c.mayaffect })).packages n
      = if s = n then (tblLookup v.packages n).map
          (fun c => { c with mayaffect := chosen :: c.mayaffect })
        else tblLookup v.packages n := tblLookup_update v.packages s _ n
  by_cases hs : s = n
  · rw [if_pos hs] at hlk
    cases hl : tblLookup v.packages n with
    | none =>
        refine ⟨0, ?_⟩
        rw [getCpkg, getCpkg, hlk, hl]
        rfl
    | some c =>
        refine ⟨1, ?_⟩
        rw [getCpkg, getCpkg, hlk, hl]
        rfl
  · rw [if_neg hs] at hlk
    refine ⟨0, ?_⟩
    rw [getCpkg, getCpkg, hlk]
    rfl

theorem memoFold_mayaffect (chosen : String) (ms : List String) :
    ∀ (v : DpkgPackages) (n : String),
    ∃ k : Nat, (getCpkg (ms.foldl
        (fun v s => updatePkg v s (fun c => { c with mayaffect := chosen :: c.mayaffect })) v) n).mayaffect
      = List.replicate k chosen ++ (getCpkg v n).mayaffect := by
  induction ms with
  | nil =>
      intro v n
      exact ⟨0, rfl⟩
  | cons s t ih =>
      intro v n
      rw [List.foldl_cons]
      obtain ⟨k, hk⟩ := ih (updatePkg v s
        (fun c => { c with mayaffect := chosen :: c.mayaffect })) n
      obtain ⟨j, hj⟩ := getCpkg_updatePkg_mayaffect chosen v s n
      refine ⟨k + j, ?_⟩
      rw [hk, hj, ← List.append_assoc, ← List.replicate_add]

theorem swpFoldM (vc : String → String → Int) (chosen : String) (frames : List IdFrame) :
    ∀ u : DpkgPackages, (∀ f ∈ frames, frameSel f) →
    frames.foldlM
      (fun u f => do
        let i ← f.cur
        let sel ← f.instone.get? i
        let u1 :=
          if (getCpkg u sel).installed = 1 then
            updatePkg u sel (fun c => { c with mayaffect := chosen :: c.mayaffect })
          else u
        pure (uninstall vc u1 sel)) u
      = some (successWalkP vc chosen u frames) := by
  induction frames with
  | nil => intro u _; rfl
  | cons f t ih =>
      intro u hall
      obtain ⟨i, hi⟩ := Option.isSome_iff_exists.mp (hall f (List.mem_cons_self f t)).1
      have hlt : i < f.instone.length := by
        have h2 := (hall f (List.mem_cons_self f t)).2
        rw [hi] at h2
        exact h2
      have hsel : selOf f = f.instone.getD i "" := by
        rw [selOf, hi]
        rfl
      have hget : f.instone.get? i = some (f.instone.getD i "") := by
        rw [List.get?_eq_getElem?, List.getElem?_eq_getElem hlt, List.getD_eq_getElem?_getD,
          List.getElem?_eq_getElem hlt]
        rfl
      rw [List.foldlM_cons]
      have hbody : (do
            let i2 ← f.cur
            let sel ← f.instone.get? i2
            let u1 :=
              if (getCpkg u sel).installed = 1 then
                updatePkg u sel (fun c => { c with mayaffect := chosen :: c.mayaffect })
              else u
            pure (uninstall vc u1 sel) : Option DpkgPackages)
          = some (swpStep vc chosen u f) := by
        rw [hi]
        show (do
            let sel ← f.instone.get? i
            let u1 :=
              if (getCpkg u sel).installed = 1 then
                updatePkg u sel (fun c => { c with mayaffect := chosen :: c.mayaffect })
              else u
            pure (uninstall vc u1 sel) : Option DpkgPackages)
          = some (swpStep vc chosen u f)
        rw [hget]
        show some (uninstall vc
          (if (getCpkg u (f.instone.getD i "")).installed = 1 then
            updatePkg u (f.instone.getD i "")
              (fun c => { c with mayaffect := chosen :: c.mayaffect })
          else u) (f.instone.getD i "")) = some (swpStep vc chosen u f)
        rw [swpStep, hsel]
      rw [hbody]
      show (t.foldlM _ (swpStep vc chosen u f)) = some (successWalkP vc chosen u (f :: t))
      exact ih (swpStep vc chosen u f) (fun g hg => hall g (List.mem_cons_of_mem f hg))

theorem successHandler_eq (vc : String → String → Int) (u : DpkgPackages)
    (f0 : IdFrame) (fs : List IdFrame) (hall : ∀ f ∈ f0 :: fs, frameSel f) :
    successHandler vc u (f0 :: fs) = some (successOut vc (selOf f0) u (f0 :: fs)) := by
  obtain ⟨i, hi⟩ := Option.isSome_iff_exists.mp (hall f0 (List.mem_cons_self f0 fs)).1
  have hlt : i < f0.instone.length := by
    have h2 := (hall f0 (List.mem_cons_self f0 fs)).2
    rw [hi] at h2
    exact h2
  have hsel : selOf f0 = f0.instone.getD i "" := by
    rw [selOf, hi]
    rfl
  have hget : f0.instone.get? i = some (f0.instone.getD i "") := by
    rw [List.get?_eq_getElem?, List.getElem?_eq_getElem hlt, List.getD_eq_getElem?_getD,
      List.getElem?_eq_getElem hlt]
    rfl
  rw [successHandler]
  show (do
      let ci ← f0.cur
      let chosen ← f0.instone.get? ci
      let u0 := updatePkg u chosen (fun c => { c with installable := .yes })
      (f0 :: fs).reverse.foldlM
        (fun u f => do
          let i ← f.cur
          let sel ← f.instone.get? i
          let u1 :=
            if (getCpkg u sel).installed = 1 then
              updatePkg u sel (fun c => { c with mayaffect := chosen :: c.mayaffect })
            else u
          pure (uninstall vc u1 sel)) u0)
    = some (successOut vc (selOf f0) u (f0 :: fs))
  rw [hi]
  show (do
      let chosen ← f0.instone.get? i
      let u0 := updatePkg u chosen (fun c => { c with installable := .yes })
      (f0 :: fs).reverse.foldlM
        (fun u f => do
          let i ← f.cur
          let sel ← f.instone.get? i
          let u1 :=
            if (getCpkg u sel).installed = 1 then
              updatePkg u sel (fun c => { c with mayaffect := chosen :: c.mayaffect })
            else u
          pure (uninstall vc u1 sel)) u0)
    = some (successOut vc (selOf f0) u (f0 :: fs))
  rw [hget]
  show ((f0 :: fs).reverse.foldlM
      (fun u f => do
        let i2 ← f.cur
        let sel ← f.instone.get? i2
        let u1 :=
          if (getCpkg u sel).installed = 1 then
            updatePkg u sel
              (fun c => { c with mayaffect := f0.instone.getD i "" :: c.mayaffect })
          else u
        pure (uninstall vc u1 sel))
      (updatePkg u (f0.instone.getD i "") (fun c => { c with installable := .yes })))
    = some (successOut vc (selOf f0) u (f0 :: fs))
  rw [← hsel, successOut]
  exact swpFoldM vc (selOf f0) (f0 :: fs).reverse
    (updatePkg u (selOf f0) (fun c => { c with installable := .yes }))
    (fun g hg => hall g (List.mem_reverse.mp hg))

theorem getCpkg_updatePkg_ne (v : DpkgPackages) (m n : String)
    (f : CollectedPackage → CollectedPackage) (h : m ≠ n) :
    getCpkg (updatePkg v m f) n = getCpkg v n := by
  show (tblLookup (tblUpdate v.packages m f) n).getD noCollected
    = (tblLookup v.packages n).getD noCollected
  rw [tblLookup_update, if_neg h]

theorem memoFold_keys (chosen : String) (ms : List String) :
    ∀ v : DpkgPackages,
    (ms.foldl (fun v s => updatePkg v s
        (fun c => { c with mayaffect := chosen :: c.mayaffect })) v).packages.map Prod.fst
      = v.packages.map Prod.fst := by
  induction ms with
  | nil => intro v; rfl
  | cons s t ih =>
      intro v
      rw [List.foldl_cons, ih]
      exact tblUpdate_keys v.packages s _

theorem tblLookup_isSome_of_mem {α : Type} {t : List (String × α)} {m : String}
    (hm : m ∈ t.map Prod.fst) : ∃ c, tblLookup t m = some c := by
  induction t with
  | nil => exact absurd hm (by simp)
  | cons e tl ih =>
      rw [tblLookup]
      by_cases he : e.1 = m
      · rw [if_pos he]
        exact ⟨e.2, rfl⟩
      · rw [if_neg he]
        refine ih ?_
        rw [List.map_cons] at hm
        rcases List.mem_cons.mp hm with h | h
        · exact absurd h.symm he
        · exact h

theorem getCpkg_present {v : DpkgPackages} {m : String}
    (hm : m ∈ v.packages.map Prod.fst) :
    ∃ c, tblLookup v.packages m = some c := tblLookup_isSome_of_mem hm

theorem selOf_mem (hd : IdFrame) (h : frameSel hd) : selOf hd ∈ hd.instone := by
  obtain ⟨i, hi⟩ := Option.isSome_iff_exists.mp h.1
  have hlt : i < hd.instone.length := by
    have h2 := h.2
    rw [hi] at h2
    exact h2
  rw [selOf, hi]
  show hd.instone.getD i "" ∈ hd.instone
  rw [List.getD_eq_getElem?_getD, List.getElem?_eq_getElem hlt]
  exact List.getElem_mem hlt

theorem successOut_decompose (vc : String → String → Int) (chosen : String)
    (σ₀ : DpkgPackages) (frames : List IdFrame) :
    ∃ ms : List String,
    successOut vc chosen (applyInstalls vc σ₀ (frames.map selOf)) frames
      = updatePkg
          (ms.foldl (fun v s => updatePkg v s
            (fun c => { c with mayaffect := chosen :: c.mayaffect })) σ₀)
          chosen (fun c => { c with installable := .yes }) := by
  have hgy : (fun c => { c with installable := Installability.yes } :
      CollectedPackage → CollectedPackage) = memoUpd (fun _ => .yes) id :=
    funext (fun c => rfl)
  have hunw : applyUninstalls vc (applyInstalls vc σ₀ (frames.map selOf))
      (frames.reverse.map selOf) = σ₀ := by
    rw [show frames.reverse.map selOf = (frames.map selOf).reverse from by
      rw [List.map_reverse]]
    exact unwind_cancel vc σ₀ (frames.map selOf)
  obtain ⟨ms, hms⟩ := successWalkP_decompose vc chosen frames.reverse
    (applyInstalls vc σ₀ (frames.map selOf))
  refine ⟨ms, ?_⟩
  rw [successOut, hgy, successWalkP_updatePkg vc chosen (fun _ => .yes) id (fun l => rfl)
    frames.reverse (applyInstalls vc σ₀ (frames.map selOf)) chosen, ← hgy, hms, hunw]

theorem successOut_counters (vc : String → String → Int) (chosen : String)
    (σ₀ : DpkgPackages) (frames : List IdFrame) (n : String) :
    (getCpkg (successOut vc chosen (applyInstalls vc σ₀ (frames.map selOf)) frames) n).installed
      = (getCpkg σ₀ n).installed ∧
    (getCpkg (successOut vc chosen (applyInstalls vc σ₀ (frames.map selOf)) frames) n).conflicted
      = (getCpkg σ₀ n).conflicted := by
  obtain ⟨ms, hms⟩ := successOut_decompose vc chosen σ₀ frames
  rw [hms]
  constructor
  · exact (getCpkg_updatePkg_proj (fun c => c.installed) _ chosen n
      (fun c => { c with installable := Installability.yes }) (fun c => rfl)).trans
      (memoFold_proj (fun c => c.installed) chosen (fun c => rfl) ms σ₀ n)
  · exact (getCpkg_updatePkg_proj (fun c => c.conflicted) _ chosen n
      (fun c => { c with installable := Installability.yes }) (fun c => rfl)).trans
      (memoFold_proj (fun c => c.conflicted) chosen (fun c => rfl) ms σ₀ n)

theorem success_exit_eq (vc : String → String → Int) (pkgs : DpkgPackages)
    (ins : List String) (u : DpkgPackages) (frames : List IdFrame)
    (hmiss : (ins.any fun n => (getCpkg pkgs n).installable == .yes) = false)
    (hml : mainLoop vc 10000000 (initSolver pkgs ins) = .success u frames) :
    ∃ hd fs, frames = hd :: fs ∧
      u = applyInstalls vc pkgs (frames.map selOf) ∧
      selOf hd ∈ ins ∧
      checkinstallable vc pkgs ins = some (true, successOut vc (selOf hd) u frames) := by
  have hloop := mainLoop_spec vc pkgs ins 10000000 (initSolver pkgs ins)
    (initSolver_inv vc pkgs ins)
  rw [hml] at hloop
  obtain ⟨hu, hall, hhead, hne⟩ := hloop
  obtain ⟨hd, fs, hfs⟩ : ∃ hd fs, frames = hd :: fs := by
    cases frames with
    | nil => exact absurd rfl hne
    | cons a l => exact ⟨a, l, rfl⟩
  have hmemins : selOf hd ∈ ins := by
    have hinst : hd.instone = ins := by
      rw [hfs] at hhead
      exact hhead
    rw [← hinst]
    exact selOf_mem hd (hall hd (by rw [hfs]; exact List.mem_cons_self hd fs))
  refine ⟨hd, fs, hfs, hu, hmemins, ?_⟩
  rw [checkinstallable, if_neg (by rw [hmiss]; exact Bool.false_ne_true), hml, hfs]
  show (match successHandler vc u (hd :: fs) with
      | some u2 => some (true, u2)
      | none => none) = some (true, successOut vc (selOf hd) u (hd :: fs))
  rw [successHandler_eq vc u hd fs (hfs ▸ hall)]

/-- C1: on every exit of `checkinstallable` — memo hit, success, failure,
or budget exhaustion — the `installed` and `conflicted` counters of every
collected package in the returned universe equal their pre-call values;
in particular, counters that were all zero before the call are all zero
after it. -/
theorem c1_counters_zero (vc : String → String → Int) (pkgs : DpkgPackages)
    (ins : List String) (b : Bool) (u2 : DpkgPackages)
    (h : checkinstallable vc pkgs ins = some (b, u2)) :
    (∀ n, (getCpkg u2 n).installed = (getCpkg pkgs n).installed ∧
          (getCpkg u2 n).conflicted = (getCpkg pkgs n).conflicted) ∧
    ((∀ n, (getCpkg pkgs n).installed = 0 ∧ (getCpkg pkgs n).conflicted = 0) →
      ∀ n, (getCpkg u2 n).installed = 0 ∧ (getCpkg u2 n).conflicted = 0) := by
  suffices hmain : ∀ n, (getCpkg u2 n).installed = (getCpkg pkgs n).installed ∧
      (getCpkg u2 n).conflicted = (getCpkg pkgs n).conflicted by
    refine ⟨hmain, fun h0 n => ?_⟩
    obtain ⟨h1, h2⟩ := hmain n
    obtain ⟨z1, z2⟩ := h0 n
    exact ⟨h1.trans z1, h2.trans z2⟩
  rw [checkinstallable] at h
  by_cases hmemo : (ins.any fun n => (getCpkg pkgs n).installable == Installability.yes) = true
  · rw [if_pos hmemo] at h
    injection h with h3
    have hueq : pkgs = u2 := congrArg Prod.snd h3
    intro n
    rw [← hueq]
    exact ⟨rfl, rfl⟩
  · rw [if_neg hmemo] at h
    cases hml : mainLoop vc 10000000 (initSolver pkgs ins) with
    | budget st2 =>
        rw [hml] at h
        have h2 : some (false, budgetUnwind vc st2) = some (b, u2) := h
        injection h2 with h3
        have hueq : budgetUnwind vc st2 = u2 := congrArg Prod.snd h3
        have hloop := mainLoop_spec vc pkgs ins 10000000 (initSolver pkgs ins)
          (initSolver_inv vc pkgs ins)
        rw [hml] at hloop
        have hbu : budgetUnwind vc st2 = pkgs := budgetUnwind_restores vc pkgs ins st2 hloop
        intro n
        rw [← hueq, hbu]
        exact ⟨rfl, rfl⟩
    | budgetNull p f =>
        rw [hml] at h
        exact Option.noConfusion h
    | success u frames =>
        rw [hml] at h
        have hloop := mainLoop_spec vc pkgs ins 10000000 (initSolver pkgs ins)
          (initSolver_inv vc pkgs ins)
        rw [hml] at hloop
        obtain ⟨hu, hall, hhead, hne⟩ := hloop
        obtain ⟨hd, fs, hfs⟩ : ∃ hd fs, frames = hd :: fs := by
          cases frames with
          | nil => exact absurd rfl hne
          | cons a l => exact ⟨a, l, rfl⟩
        have h2 : (match successHandler vc u frames with
            | some u3 => some (true, u3)
            | none => none) = some (b, u2) := h
        rw [hfs, successHandler_eq vc u hd fs (hfs ▸ hall)] at h2
        have h4 : some (true, successOut vc (selOf hd) u (hd :: fs)) = some (b, u2) := h2
        injection h4 with h3
        have hueq : successOut vc (selOf hd) u (hd :: fs) = u2 := congrArg Prod.snd h3
        intro n
        rw [← hueq, ← hfs, hu]
        exact successOut_counters vc (selOf hd) pkgs frames n
    | fail st2 =>
        rw [hml] at h
        have h2 : some (false, st2.pkgs) = some (b, u2) := h
        injection h2 with h3
        have hueq : st2.pkgs = u2 := congrArg Prod.snd h3
        have hloop := mainLoop_spec vc pkgs ins 10000000 (initSolver pkgs ins)
          (initSolver_inv vc pkgs ins)
        rw [hml] at hloop
        intro n
        rw [← hueq, hloop]
        exact ⟨rfl, rfl⟩

/-- Witness for C1: the concrete run on `fixAB` (a depends on b) returns
with both counters of both packages restored to zero. -/
theorem c1_counters_zero_witness :
    checkinstallable vcZero fixAB ["a"] = some (true, fixABres) ∧
    (getCpkg fixABres "a").installed = 0 ∧ (getCpkg fixABres "b").installed = 0 ∧
    (getCpkg fixABres "a").conflicted = 0 ∧ (getCpkg fixABres "b").conflicted = 0 := by
  have hc : checkinstallable vcZero fixAB ["a"] = some (true, fixABres) := by rfl
  have hmain := (c1_counters_zero vcZero fixAB ["a"] true fixABres hc).1
  refine ⟨hc, ?_, ?_, ?_, ?_⟩
  · exact ((hmain "a").1).trans (by rfl)
  · exact ((hmain "b").1).trans (by rfl)
  · exact ((hmain "a").2).trans (by rfl)
  · exact ((hmain "b").2).trans (by rfl)

/-- C5: the main loop of `checkinstallable` runs at most `budget - 1` loop
bodies for any fuel value (so at most 9 999 999 at the hard-coded budget
of 10 000 000); when the loop exhausts its budget the overflow handler
unwinds every install exactly, and at the hard-coded budget the check
returns "not installable" with the untouched input universe. -/
theorem c5_budget_exhaustion (vc : String → String → Int) (pkgs : DpkgPackages)
    (ins : List String) (st2 : SolverState) (c : Nat)
    (hmiss : (ins.any fun n => (getCpkg pkgs n).installable == .yes) = false)
    (hml : mainLoop vc c (initSolver pkgs ins) = .budget st2) :
    mainLoopIters vc c (initSolver pkgs ins) ≤ c - 1 ∧
    budgetUnwind vc st2 = pkgs ∧
    (c = 10000000 → checkinstallable vc pkgs ins = some (false, pkgs)) := by
  have hloop := mainLoop_spec vc pkgs ins c (initSolver pkgs ins)
    (initSolver_inv vc pkgs ins)
  rw [hml] at hloop
  have hbu : budgetUnwind vc st2 = pkgs := budgetUnwind_restores vc pkgs ins st2 hloop
  refine ⟨mainLoopIters_le vc c (initSolver pkgs ins), hbu, ?_⟩
  intro hc
  subst hc
  rw [checkinstallable, if_neg (by rw [hmiss]; exact Bool.false_ne_true), hml]
  show some (false, budgetUnwind vc st2) = some (false, pkgs)
  rw [hbu]

/-- Witness for C5: a run given fuel 1 exhausts the budget immediately and
the overflow handler hands back the input universe unchanged. -/
theorem c5_budget_exhaustion_witness :
    (mainLoop vcZero 1 (initSolver fixAB ["a"]) = .budget (initSolver fixAB ["a"])) ∧
    mainLoopIters vcZero 1 (initSolver fixAB ["a"]) ≤ 0 ∧
    budgetUnwind vcZero (initSolver fixAB ["a"]) = fixAB := by
  have hml : mainLoop vcZero 1 (initSolver fixAB ["a"]) = .budget (initSolver fixAB ["a"]) :=
    rfl
  have hmiss : ((["a"] : List String).any
      fun n => (getCpkg fixAB n).installable == .yes) = false := by decide
  obtain ⟨h1, h2, h3⟩ := c5_budget_exhaustion vcZero fixAB ["a"] (initSolver fixAB ["a"]) 1
    hmiss hml
  exact ⟨hml, h1, h2⟩

/-- C4: when the search succeeds, the check returns YES together with the
universe produced by the success walk: the chosen provider of the initial
alternatives is memoized installable-YES, the walk prepends the chosen
provider's name to the `mayaffect` of the frame selections it sees with
`installed == 1` (so every `mayaffect` gains some number of copies of the
chosen name and nothing else), no other package's memoization changes,
and every install is undone (counters return to their pre-call values). -/
theorem c4_success_path (vc : String → String → Int) (pkgs : DpkgPackages)
    (ins : List String) (u : DpkgPackages) (frames : List IdFrame)
    (hins : ∀ n ∈ ins, n ∈ pkgs.packages.map Prod.fst)
    (hmiss : (ins.any fun n => (getCpkg pkgs n).installable == .yes) = false)
    (hml : mainLoop vc 10000000 (initSolver pkgs ins) = .success u frames) :
    ∃ hd fs, frames = hd :: fs ∧ selOf hd ∈ ins ∧
      checkinstallable vc pkgs ins = some (true, successOut vc (selOf hd) u frames) ∧
      (getCpkg (successOut vc (selOf hd) u frames) (selOf hd)).installable = .yes ∧
      (∀ n, (getCpkg (successOut vc (selOf hd) u frames) n).installed
            = (getCpkg pkgs n).installed ∧
          (getCpkg (successOut vc (selOf hd) u frames) n).conflicted
            = (getCpkg pkgs n).conflicted) ∧
      (∀ n, n ≠ selOf hd →
          (getCpkg (successOut vc (selOf hd) u frames) n).installable
            = (getCpkg pkgs n).installable) ∧
      (∀ n, ∃ k, (getCpkg (successOut vc (selOf hd) u frames) n).mayaffect
            = List.replicate k (selOf hd) ++ (getCpkg pkgs n).mayaffect) := by
  obtain ⟨hd, fs, hfs, hu, hmem, hci⟩ := success_exit_eq vc pkgs ins u frames hmiss hml
  obtain ⟨ms, hms⟩ := successOut_decompose vc (selOf hd) pkgs frames
  have hkeys : (ms.foldl (fun v s => updatePkg v s
      (fun c => { c with mayaffect := selOf hd :: c.mayaffect })) pkgs).packages.map Prod.fst
      = pkgs.packages.map Prod.fst := memoFold_keys (selOf hd) ms pkgs
  obtain ⟨cch, hcch⟩ : ∃ c, tblLookup (ms.foldl (fun v s => updatePkg v s
      (fun c => { c with mayaffect := selOf hd :: c.mayaffect })) pkgs).packages
        (selOf hd) = some c :=
    tblLookup_isSome_of_mem (by rw [hkeys]; exact hins (selOf hd) hmem)
  refine ⟨hd, fs, hfs, hmem, hci, ?_, ?_, ?_, ?_⟩
  · rw [hu, hms]
    show ((tblLookup (tblUpdate _ (selOf hd)
        (fun c => { c with installable := Installability.yes })) (selOf hd)).getD
        noCollected).installable = Installability.yes
    rw [tblLookup_update, if_pos rfl, hcch]
    rfl
  · intro n
    rw [hu]
    exact successOut_counters vc (selOf hd) pkgs frames n
  · intro n hn
    rw [hu, hms, getCpkg_updatePkg_ne _ (selOf hd) n _ (fun he => hn he.symm)]
    exact memoFold_proj (fun c => c.installable) (selOf hd) (fun c => rfl) ms pkgs n
  · intro n
    rw [hu, hms]
    rw [show (getCpkg (updatePkg (ms.foldl (fun v s => updatePkg v s
        (fun c => { c with mayaffect := selOf hd :: c.mayaffect })) pkgs) (selOf hd)
        (fun c => { c with installable := Installability.yes })) n).mayaffect
      = (getCpkg (ms.foldl (fun v s => updatePkg v s
          (fun c => { c with mayaffect := selOf hd :: c.mayaffect })) pkgs) n).mayaffect
      from getCpkg_updatePkg_proj (fun c => c.mayaffect) _ (selOf hd) n _ (fun c => rfl)]
    exact memoFold_mayaffect (selOf hd) ms pkgs n

/-- Witness for C4: the concrete `fixAB` run memoizes YES on `a` and
leaves `b` with zeroed counters and only copies of `a` prepended to its
`mayaffect`. -/
theorem c4_success_path_witness :
    ∃ u2, checkinstallable vcZero fixAB ["a"] = some (true, u2) ∧
      (getCpkg u2 "a").installable = .yes ∧
      (getCpkg u2 "b").installed = 0 ∧
      (∃ k, (getCpkg u2 "b").mayaffect = List.replicate k "a") := by
  obtain ⟨hd, fs, hfs, hmem, hci, hyes, hctr, hinstol, hmay⟩ :=
    c4_success_path vcZero fixAB ["a"] fixABsuccU fixABsuccF (by decide) (by decide) rfl
  have hchosen : selOf hd = "a" := List.mem_singleton.mp hmem
  rw [hchosen] at hci hyes hctr hmay
  refine ⟨successOut vcZero "a" fixABsuccU fixABsuccF, hci, hyes, ?_, ?_⟩
  · exact ((hctr "b").1).trans (by rfl)
  · obtain ⟨k, hk⟩ := hmay "b"
    refine ⟨k, ?_⟩
    rw [hk]
    show List.replicate k "a" ++ (getCpkg fixAB "b").mayaffect = List.replicate k "a"
    rw [show (getCpkg fixAB "b").mayaffect = [] from rfl, List.append_nil]

/-- C2: the undo round-trip fails.  Starting from a committed suite note
holding `s1` 1.0 with binary `b1` 1, a single `upgrade_source` to `s1`
1.1 (which ships two uploads of the binary name `b1`) followed by a
single `undo_change` pops the journal entry (LIFO) but leaves `s1` mapped
to the *intermediate* fresh note of 1.1 instead of the 1.0 note: the
second upload collides with the first, the collision path steals from the
note of the source being upgraded itself, and `save_source_note`'s
identity test (old source object vs. new source object) fails to
deduplicate, so the intermediate snapshot is replayed on undo after the
correct restoration.  The arch→binaries multiset of `s1` is not
restored. -/
theorem c2_undo_round_trip_refuted :
    can_undo (upgrade_source fixSnA cexS1v2) = true ∧
    cexUndone.undo = fixSnA.undo ∧
    (tblLookup fixSnA.sources "s1").isSome = true ∧
    (tblLookup cexUndone.sources "s1").isSome = true ∧
    cexBinsOrig = [fixBin "b1" "s1" false] ∧
    cexBinsUndone = [cexB1v2] ∧
    ¬ cexBinsUndone.Perm cexBinsOrig := by
  refine ⟨rfl, rfl, rfl, rfl, rfl, rfl, ?_⟩
  decide
